import Mathlib

/-!
Verification development for the ICT trading bot (ict_bot_all_in_one.py).

The Python program is shallowly embedded: prices are rationals, the
per-bar annotation arrays of the enrichment pipeline become index
functions over a `List Bar`, the confluence scanner, ML filter and the
backtest state machine are translated as executable Lean functions.
The sklearn logistic-regression model is abstracted as an opaque-in-spirit
but computable function field (`predictF`) together with the fitting
oracle (`fitF`); everything that the claims depend on is independent of
those two fields or quantifies over them.
-/

namespace ICTBot

/-- One OHLCV bar.  `day` is the calendar day used by the circuit breaker,
`hour` is the Paris local hour used by the kill-zone logic. -/
structure Bar where
  day : Nat
  hour : Nat
  op : ℚ
  hi : ℚ
  lo : ℚ
  cl : ℚ
  vol : ℚ
deriving Repr, DecidableEq, Inhabited

/-- Accessor mirroring `df['open'].values[i]`. -/
def opAt (bars : List Bar) (i : Nat) : ℚ := (bars.getD i default).op

/-- Accessor mirroring `df['high'].values[i]`. -/
def hiAt (bars : List Bar) (i : Nat) : ℚ := (bars.getD i default).hi

/-- Accessor mirroring `df['low'].values[i]`. -/
def loAt (bars : List Bar) (i : Nat) : ℚ := (bars.getD i default).lo

/-- Accessor mirroring `df['close'].values[i]`. -/
def clAt (bars : List Bar) (i : Nat) : ℚ := (bars.getD i default).cl

/-- Accessor mirroring `df['tick_volume'].values[i]`. -/
def volAt (bars : List Bar) (i : Nat) : ℚ := (bars.getD i default).vol

/-- Accessor for the calendar day of bar `i`. -/
def dayAt (bars : List Bar) (i : Nat) : Nat := (bars.getD i default).day

/-- Accessor for the Paris hour of bar `i`. -/
def hourAt (bars : List Bar) (i : Nat) : Nat := (bars.getD i default).hour

/-- The `'none' / 'bull' / 'bear'` strings used by `fvg_side` and `ob_side`. -/
inductive Side where
  | noside
  | bull
  | bear
deriving Repr, DecidableEq

/-- The `'ranging' / 'bullish' / 'bearish'` strings of `market_structure`. -/
inductive MS where
  | ranging
  | bullish
  | bearish
deriving Repr, DecidableEq

/-- `swing_points`: bar `i` is a swing high iff it lies in
`range(left, n-right)`, its high is the maximum of the symmetric
`left + right + 1` window and that maximum is attained exactly once. -/
def swing_high (bars : List Bar) (left right i : Nat) : Bool :=
  let w := (List.range (left + right + 1)).map (fun k => hiAt bars (i - left + k))
  decide (left ≤ i) && decide (i + right < bars.length) &&
    w.all (fun x => decide (x ≤ hiAt bars i)) &&
    (w.countP (fun x => decide (x = hiAt bars i)) == 1)

/-- `swing_points`: symmetric rule for swing lows. -/
def swing_low (bars : List Bar) (left right i : Nat) : Bool :=
  let w := (List.range (left + right + 1)).map (fun k => loAt bars (i - left + k))
  decide (left ≤ i) && decide (i + right < bars.length) &&
    w.all (fun x => decide (loAt bars i ≤ x)) &&
    (w.countP (fun x => decide (x = loAt bars i)) == 1)

/-- The `last_sh` scalar of `detect_bos` after processing bars `0..i`:
the high of the most recent swing-high bar, `none` while still NaN. -/
def lastSH (bars : List Bar) (i : Nat) : Option ℚ :=
  (List.range (i + 1)).foldl
    (fun acc j => if swing_high bars 2 2 j then some (hiAt bars j) else acc) none

/-- The `last_sl` scalar of `detect_bos` after processing bars `0..i`. -/
def lastSL (bars : List Bar) (i : Nat) : Option ℚ :=
  (List.range (i + 1)).foldl
    (fun acc j => if swing_low bars 2 2 j then some (loAt bars j) else acc) none

/-- Index of the most recent swing high at or before `i`
(the `last_sh_idx` scalar of `calculate_bos_strength`). -/
def lastSHI (bars : List Bar) (i : Nat) : Option Nat :=
  (List.range (i + 1)).foldl
    (fun acc j => if swing_high bars 2 2 j then some j else acc) none

/-- Index of the most recent swing low at or before `i`. -/
def lastSLI (bars : List Bar) (i : Nat) : Option Nat :=
  (List.range (i + 1)).foldl
    (fun acc j => if swing_low bars 2 2 j then some j else acc) none

/-- `detect_bos`: `bos_up[i]` fires when the close exceeds the most recent
swing high (no recency condition of any kind). -/
def bos_up (bars : List Bar) (i : Nat) : Bool :=
  decide (i < bars.length) &&
    match lastSH bars i with
    | some v => decide (v < clAt bars i)
    | none => false

/-- `detect_bos`: `bos_down[i]` fires when the close undercuts the most
recent swing low. -/
def bos_down (bars : List Bar) (i : Nat) : Bool :=
  decide (i < bars.length) &&
    match lastSL bars i with
    | some v => decide (clAt bars i < v)
    | none => false

/-- `detect_fvg` bullish 3-bar condition: `lows[i] > highs[i-2]`. -/
def fvg_bull (bars : List Bar) (i : Nat) : Bool :=
  decide (2 ≤ i) && decide (i < bars.length) && decide (hiAt bars (i - 2) < loAt bars i)

/-- `detect_fvg` bearish 3-bar condition: `highs[i] < lows[i-2]`. -/
def fvg_bear (bars : List Bar) (i : Nat) : Bool :=
  decide (2 ≤ i) && decide (i < bars.length) && decide (hiAt bars i < loAt bars (i - 2))

/-- `fvg_side[i]`; the bear assignment is executed after the bull one in the
source, so a (degenerate) bar satisfying both conditions reads `'bear'`. -/
def fvg_side (bars : List Bar) (i : Nat) : Side :=
  if fvg_bear bars i then .bear else if fvg_bull bars i then .bull else .noside

/-- `fvg_bull_top[i]` (`lows[i]` when the bull condition holds, else NaN). -/
def fvg_bull_top (bars : List Bar) (i : Nat) : Option ℚ :=
  if fvg_bull bars i then some (loAt bars i) else none

/-- `fvg_bull_bot[i]` (`highs[i-2]` when the bull condition holds). -/
def fvg_bull_bot (bars : List Bar) (i : Nat) : Option ℚ :=
  if fvg_bull bars i then some (hiAt bars (i - 2)) else none

/-- `fvg_bear_top[i]` (`lows[i-2]` when the bear condition holds). -/
def fvg_bear_top (bars : List Bar) (i : Nat) : Option ℚ :=
  if fvg_bear bars i then some (loAt bars (i - 2)) else none

/-- `fvg_bear_bot[i]` (`highs[i]` when the bear condition holds). -/
def fvg_bear_bot (bars : List Bar) (i : Nat) : Option ℚ :=
  if fvg_bear bars i then some (hiAt bars i) else none

/-- `detect_order_block`: index of the last down-candle (`close < open`)
in the window `[max 0 (i-lookback), i)`. -/
def obBullSrc (bars : List Bar) (lookback i : Nat) : Option Nat :=
  ((List.range' (i - lookback) (i - (i - lookback))).filter
    (fun j => decide (clAt bars j < opAt bars j))).getLast?

/-- `detect_order_block`: index of the last up-candle (`close > open`)
in the window `[max 0 (i-lookback), i)`. -/
def obBearSrc (bars : List Bar) (lookback i : Nat) : Option Nat :=
  ((List.range' (i - lookback) (i - (i - lookback))).filter
    (fun j => decide (opAt bars j < clAt bars j))).getLast?

/-- `ob_side[i]`: a bull order block on a `bos_up` bar, a bear one on a
`bos_down` bar (the `elif` makes `bos_up` win), `'none'` otherwise. -/
def ob_side (bars : List Bar) (lookback i : Nat) : Side :=
  if bos_up bars i then
    match obBullSrc bars lookback i with
    | some _ => .bull
    | none => .noside
  else if bos_down bars i then
    match obBearSrc bars lookback i with
    | some _ => .bear
    | none => .noside
  else .noside

/-- `ob_low[i]`: low of the source candle for a bull block, open for a
bear block. -/
def ob_low (bars : List Bar) (lookback i : Nat) : Option ℚ :=
  if bos_up bars i then (obBullSrc bars lookback i).map (loAt bars)
  else if bos_down bars i then (obBearSrc bars lookback i).map (opAt bars)
  else none

/-- `ob_high[i]`: open of the source candle for a bull block, high for a
bear block. -/
def ob_high (bars : List Bar) (lookback i : Nat) : Option ℚ :=
  if bos_up bars i then (obBullSrc bars lookback i).map (opAt bars)
  else if bos_down bars i then (obBearSrc bars lookback i).map (hiAt bars)
  else none

/-- `calculate_atr` true range: `high-low` at 0, the three-way max after. -/
def true_range (bars : List Bar) : Nat → ℚ
  | 0 => hiAt bars 0 - loAt bars 0
  | i + 1 =>
    max (hiAt bars (i + 1) - loAt bars (i + 1))
      (max |hiAt bars (i + 1) - clAt bars i| |loAt bars (i + 1) - clAt bars i|)

/-- `calculate_atr`: zeros before `period-1`, simple mean of the first
`period` true ranges at `period-1`, Wilder smoothing afterwards. -/
def atr (bars : List Bar) (period : Nat) : Nat → ℚ
  | 0 => if period = 1 then true_range bars 0 else 0
  | i + 1 =>
    if i + 2 < period then 0
    else if i + 2 = period then
      ((List.range period).map (true_range bars)).sum / (period : ℚ)
    else (atr bars period i * ((period - 1 : Nat) : ℚ) + true_range bars (i + 1)) / (period : ℚ)

/-- `calculate_bos_strength`: break magnitude over ATR on BOS bars. -/
def bos_strength (bars : List Bar) (i : Nat) : ℚ :=
  if bos_up bars i && (lastSHI bars i).isSome then
    match lastSHI bars i with
    | some j =>
      if 0 < atr bars 14 i then (clAt bars i - hiAt bars j) / atr bars 14 i else 0
    | none => 0
  else if bos_down bars i && (lastSLI bars i).isSome then
    match lastSLI bars i with
    | some j =>
      if 0 < atr bars 14 i then (loAt bars j - clAt bars i) / atr bars 14 i else 0
    | none => 0
  else 0

/-- `bos_age[i]`: bars since the broken swing on BOS bars, NaN otherwise. -/
def bos_age (bars : List Bar) (i : Nat) : Option Nat :=
  if bos_up bars i && (lastSHI bars i).isSome then
    (lastSHI bars i).map (fun j => i - j)
  else if bos_down bars i && (lastSLI bars i).isSome then
    (lastSLI bars i).map (fun j => i - j)
  else none

/-- Number of strictly increasing adjacent pairs of a level list. -/
def pairsUp (l : List ℚ) : Nat :=
  (l.zip l.tail).countP (fun p => decide (p.1 < p.2))

/-- Number of strictly decreasing adjacent pairs of a level list. -/
def pairsDown (l : List ℚ) : Nat :=
  (l.zip l.tail).countP (fun p => decide (p.2 < p.1))

/-- `detect_market_structure` body for one index: classify the last up to 3
swing highs/lows of the trailing window as HH/HL vs LL/LH. -/
def structAnalysis (bars : List Bar) (lookback i : Nat) : MS × ℚ :=
  if i < lookback then (.ranging, 0)
  else
    let ws := i - lookback
    let shs := (List.range' ws (i - ws)).filter (fun j => swing_high bars 2 2 j)
    let sls := (List.range' ws (i - ws)).filter (fun j => swing_low bars 2 2 j)
    if shs.length < 2 ∨ sls.length < 2 then (.ranging, 0)
    else
      let shl := (shs.drop (shs.length - 3)).map (hiAt bars)
      let sll := (sls.drop (sls.length - 3)).map (loAt bars)
      let bullS := pairsUp shl + pairsUp sll
      let bearS := pairsDown sll + pairsDown shl
      let total := (shl.length - 1) + (sll.length - 1)
      if total = 0 then (.ranging, 0)
      else if bearS < bullS then (.bullish, (bullS : ℚ) / (total : ℚ))
      else if bullS < bearS then (.bearish, -((bearS : ℚ) / (total : ℚ)))
      else (.ranging, 0)

/-- `market_structure[i]` with the `lookback=20` used by `enrich`. -/
def market_structure (bars : List Bar) (i : Nat) : MS :=
  (structAnalysis bars 20 i).1

/-- `structure_score[i]` with the `lookback=20` used by `enrich`. -/
def structure_score (bars : List Bar) (i : Nat) : ℚ :=
  (structAnalysis bars 20 i).2

/-- Bar `i` touching the zone of the bull gap created at `j`
(`current_low <= top and current_high >= bot` in `mark_fvg_mitigation`). -/
def mitTouchBull (bars : List Bar) (j i : Nat) : Bool :=
  decide (loAt bars i ≤ loAt bars j) && decide (hiAt bars (j - 2) ≤ hiAt bars i)

/-- Bar `i` touching the zone of the bear gap created at `j`
(`current_high >= bot and current_low <= top`). -/
def mitTouchBear (bars : List Bar) (j i : Nat) : Bool :=
  decide (hiAt bars j ≤ hiAt bars i) && decide (loAt bars i ≤ loAt bars (j - 2))

/-- `mark_fvg_mitigation`: the gap registered at `j` is marked as soon as
any bar `i ≥ j` (the registering loop iteration checks the gap's own bar)
touches its zone; the forward scan is unbounded. -/
def fvg_mitigated (bars : List Bar) (j : Nat) : Bool :=
  match fvg_side bars j with
  | .bull => (List.range' j (bars.length - j)).any (fun i => mitTouchBull bars j i)
  | .bear => (List.range' j (bars.length - j)).any (fun i => mitTouchBear bars j i)
  | .noside => false

/-- `infer_bias` / the inline bias computation of `backtest`. -/
def infer_bias (bars : List Bar) (i : Nat) : Side :=
  if bos_up bars i && !bos_down bars i then .bull
  else if bos_down bars i && !bos_up bars i then .bear
  else .noside

/-- The v2.0 strategy toggles consulted by `latest_fvg_confluence_row`. -/
structure ScanCfg where
  useFvgMitigationFilter : Bool
  useBosRecencyFilter : Bool
  bosMaxAge : Nat
  fvgBosMaxDistance : Nat
  useMarketStructureFilter : Bool
deriving Repr, DecidableEq

/-- Module-level defaults of the strategy toggles. -/
def defaultScanCfg : ScanCfg :=
  { useFvgMitigationFilter := true
    useBosRecencyFilter := true
    bosMaxAge := 20
    fvgBosMaxDistance := 20
    useMarketStructureFilter := true }

/-- The dict returned by `latest_fvg_confluence_row`. -/
structure Confluence where
  side : Side
  top : ℚ
  bot : ℚ
  mid : ℚ
  idx_fvg : Nat
  idx_bos : Nat
deriving Repr, DecidableEq

/-- `abs(nearest_bos_idx - j)` on natural indices. -/
def natDist (a b : Nat) : Nat := max a b - min a b

/-- One iteration of the backward scan of `latest_fvg_confluence_row`
over candidate bar `j`; `none` is the `continue`. -/
def scanCandidate (sc : ScanCfg) (bars : List Bar) (idx j : Nat) : Option Confluence :=
  let px := clAt bars idx
  match fvg_side bars j with
  | .noside => none
  | .bull =>
    if sc.useFvgMitigationFilter && fvg_mitigated bars j then none
    else
      match fvg_bull_top bars j, fvg_bull_bot bars j with
      | some top, some bot =>
        if !(decide (bot ≤ px) && decide (px ≤ top)) then none
        else
          let searchStart := if sc.useBosRecencyFilter then idx - sc.bosMaxAge else idx - 60
          match ((List.range' searchStart (idx + 1 - searchStart)).reverse).find?
              (fun b => bos_up bars b) with
          | none => none
          | some bosIdx =>
            if sc.useBosRecencyFilter && decide (sc.bosMaxAge < idx - bosIdx) then none
            else if sc.fvgBosMaxDistance < natDist bosIdx j then none
            else if sc.useMarketStructureFilter && decide (market_structure bars idx = .bearish)
              then none
            else some ⟨.bull, top, bot, (top + bot) / 2, j, bosIdx⟩
      | _, _ => none
  | .bear =>
    if sc.useFvgMitigationFilter && fvg_mitigated bars j then none
    else
      match fvg_bear_top bars j, fvg_bear_bot bars j with
      | some top, some bot =>
        if !(decide (bot ≤ px) && decide (px ≤ top)) then none
        else
          let searchStart := if sc.useBosRecencyFilter then idx - sc.bosMaxAge else idx - 60
          match ((List.range' searchStart (idx + 1 - searchStart)).reverse).find?
              (fun b => bos_down bars b) with
          | none => none
          | some bosIdx =>
            if sc.useBosRecencyFilter && decide (sc.bosMaxAge < idx - bosIdx) then none
            else if sc.fvgBosMaxDistance < natDist bosIdx j then none
            else if sc.useMarketStructureFilter && decide (market_structure bars idx = .bullish)
              then none
            else some ⟨.bear, top, bot, (top + bot) / 2, j, bosIdx⟩
      | _, _ => none

/-- `latest_fvg_confluence_row`: scan `j = idx-1` down to
`max (idx - max_lookback) 2`, first candidate passing every filter wins. -/
def latest_fvg_confluence_row (sc : ScanCfg) (bars : List Bar) (idx max_lookback : Nat) :
    Option Confluence :=
  let start := max (idx - max_lookback) 2
  ((List.range' start (idx - start)).reverse).findSome? (scanCandidate sc bars idx)

/-- Maximum of a rational list (`0` on the empty list, which the callers
never hit). -/
def qmax : List ℚ → ℚ
  | [] => 0
  | x :: xs => xs.foldl max x

/-- Minimum of a rational list. -/
def qmin : List ℚ → ℚ
  | [] => 0
  | x :: xs => xs.foldl min x

/-- `make_features_for_ml`: the 12-feature vector.  `nowKz` stands for the
wall-clock `in_kill_zone(now_paris())` call of the source, which does not
depend on the bar data. -/
def make_features_for_ml (bars : List Bar) (nowKz : Bool) (idx : Nat) (fvg : Confluence) :
    List ℚ :=
  let wstart := idx - 50
  let wlen := idx - wstart
  let widx := List.range' wstart wlen
  let gap := |fvg.top - fvg.bot|
  let rng : ℚ := if wlen < 10 then 1 / 1000000 else
    qmax (widx.map (hiAt bars)) - qmin (widx.map (loAt bars))
  let vol : ℚ := if wlen < 10 then 0 else (widx.map (volAt bars)).sum / (wlen : ℚ)
  let bias : ℚ :=
    if infer_bias bars idx = .bull then 1 else if infer_bias bars idx = .bear then -1 else 0
  let kz : ℚ := if nowKz then 1 else 0
  let atrv := atr bars 14 idx
  let price := clAt bars idx
  let atrNorm := if 0 < price then atrv / price else 0
  let fvgAtr := if 0 < atrv then gap / atrv else 0
  let bosProx := min (((idx - fvg.idx_bos : Nat) : ℚ) / 50) 1
  let mom := if 10 ≤ wlen then (price - clAt bars (idx - 10)) / clAt bars (idx - 10) else 0
  let score := structure_score bars idx
  let strength := if fvg.idx_bos < bars.length then bos_strength bars fvg.idx_bos else 0
  let fvgRange := fvg.top - fvg.bot
  let posIn := if 0 < fvgRange then max 0 (min 1 ((price - fvg.bot) / fvgRange)) else 1 / 2
  [gap, rng, vol, bias, kz, atrNorm, fvgAtr, bosProx, mom, score, strength, posIn]

/-- `MLFilter` state.  The sklearn `LogisticRegression` object is abstracted:
`predictF` is the positive-class probability function of the current model
and `fitF` is the (deterministic) fitting oracle invoked by `fit_partial`;
`model is None` coincides with `enabled = false` in the source. -/
structure MLState where
  enabled : Bool
  useMeta : Bool
  loadedFromFile : Bool
  X : List (List ℚ)
  y : List ℚ
  minSamples : Nat
  isTrained : Bool
  predictF : List ℚ → ℚ
  fitF : List (List ℚ) → List ℚ → (List ℚ → ℚ)

/-- The Python slice `l[-m:]` (note `l[-0:]` is the whole list). -/
def pySliceLast (m : Nat) (l : List (List ℚ)) : List (List ℚ) :=
  if m = 0 then l else l.drop (l.length - m)

/-- The Python slice `l[-m:]` for the label list. -/
def pySliceLastQ (m : Nat) (l : List ℚ) : List ℚ :=
  if m = 0 then l else l.drop (l.length - m)

/-- `MLFilter.fit_partial`: extend the buffers, apply the rolling window
when the cap is exceeded, refit once `min_samples` is reached. -/
def fit_partial (cap : Nat) (st : MLState) (X : List (List ℚ)) (y : List ℚ) : MLState :=
  if !st.enabled then st
  else
    let X1 := st.X ++ X
    let y1 := st.y ++ y
    let X2 := if cap < X1.length then pySliceLast cap X1 else X1
    let y2 := if cap < X1.length then pySliceLastQ cap y1 else y1
    if st.minSamples ≤ X2.length then
      { st with X := X2, y := y2, predictF := st.fitF X2 y2, isTrained := true }
    else { st with X := X2, y := y2 }

/-- The cold-mode heuristic of `MLFilter.predict_proba` (v2.0 features when
12 are present, the v1.0 defaults otherwise). -/
def mlHeuristic (x : List ℚ) : ℚ :=
  let gap := x.getD 0 0
  let rng := x.getD 1 0
  let bias := x.getD 3 0
  let kz := x.getD 4 0
  let fvgAtr := if 12 ≤ x.length then x.getD 6 0 else 1
  let bosProx := if 12 ≤ x.length then x.getD 7 0 else 1 / 2
  let score := if 12 ≤ x.length then x.getD 9 0 else 0
  if rng ≤ 0 then 1 / 2
  else
    let rel := gap / rng
    let base : ℚ := 1 / 2 + (15 / 100) * rel + (5 / 100) * kz
      + (5 / 100) * (if bias ≠ 0 then 1 else 0)
      + (10 / 100) * max 0 (fvgAtr - 1 / 2)
      + (5 / 100) * (1 - bosProx)
      + (5 / 100) * |score|
    max 0 (min (95 / 100) base)

/-- `MLFilter.predict_proba`: the meta-labelling 0.99 short-circuit, the
cold-mode heuristic, or the fitted model. -/
def predict_proba (st : MLState) (x : List ℚ) : ℚ :=
  if st.useMeta && !st.loadedFromFile then 99 / 100
  else if !st.enabled || st.X.length < st.minSamples then mlHeuristic x
  else st.predictF x

/-- `in_kill_zone` on a Paris hour (London 8-11, New York 14-17). -/
def in_kill_zone (h : Nat) : Bool :=
  (decide (8 ≤ h) && decide (h < 11)) || (decide (14 ≤ h) && decide (h < 17))

/-- `'buy'` / `'sell'`. -/
inductive TradeSide where
  | buy
  | sell
deriving Repr, DecidableEq

/-- The `'ENTRY' / 'TP' / 'SL' / 'CLOSE'` history actions. -/
inductive Action where
  | entry
  | tp
  | sl
  | close
deriving Repr, DecidableEq

/-- One history dict.  `equity` is `none` for the NaN of CLOSE events;
`pnl` records the `pnl_money` local realized by TP/SL exits (`none` on
ENTRY/CLOSE events, which realize nothing). -/
structure Event where
  day : Nat
  action : Action
  side : TradeSide
  entryPrice : ℚ
  exitPrice : Option ℚ
  equity : Option ℚ
  pnl : Option ℚ
deriving Repr, DecidableEq

/-- An open position. -/
structure Trade where
  side : TradeSide
  entry : ℚ
  sl : ℚ
  tp : ℚ
  idxEntry : Nat
  prob : ℚ
  features : Option (List ℚ)
deriving Repr, DecidableEq

/-- The per-reason rejection counters of `backtest` (the stats dict). -/
structure Stats where
  cooldown_filtered : Nat := 0
  killzone_filtered : Nat := 0
  no_fvg : Nat := 0
  neutral_bias : Nat := 0
  fvg_bias_mismatch : Nat := 0
  ml_filtered : Nat := 0
  sl_too_close : Nat := 0
  max_trades_reached : Nat := 0
  atr_filtered : Nat := 0
  circuit_breaker_hit : Nat := 0
  fvg_mitigated_filtered : Nat := 0
  bos_too_old_filtered : Nat := 0
  fvg_bos_too_far_filtered : Nat := 0
  market_structure_filtered : Nat := 0
  extreme_volatility_filtered : Nat := 0
  entries : Nat := 0
deriving Repr, DecidableEq

/-- The configuration closed over by one `backtest` run: the function
parameters plus every module-level constant the engine reads. -/
structure BTConfig where
  pip : ℚ
  pvLot : ℚ
  risk : ℚ
  rr : ℚ
  cooldown : Nat
  useKillzones : Bool
  mlThreshold : ℚ
  maxConcurrent : Nat
  useSessionRR : Bool
  rrTakeProfit : ℚ
  rrLondon : ℚ
  rrNewyork : ℚ
  rrDefault : ℚ
  useAtrFilter : Bool
  atrFvgMinRatio : ℚ
  useCircuitBreaker : Bool
  dailyDdLimit : ℚ
  useAdaptiveRisk : Bool
  riskReductionFactor : ℚ
  useOrderBlockSL : Bool
  useExtremeVolatility : Bool
  volMultMax : ℚ
  maxMlSamples : Nat
  scan : ScanCfg
deriving Repr, DecidableEq

/-- Module defaults with `info=None` (pip 0.0001, pip value 10). -/
def defaultCfg : BTConfig :=
  { pip := 1 / 10000
    pvLot := 10
    risk := 1 / 100
    rr := 9 / 5
    cooldown := 5
    useKillzones := true
    mlThreshold := 2 / 5
    maxConcurrent := 2
    useSessionRR := true
    rrTakeProfit := 9 / 5
    rrLondon := 6 / 5
    rrNewyork := 3 / 2
    rrDefault := 13 / 10
    useAtrFilter := true
    atrFvgMinRatio := 1 / 5
    useCircuitBreaker := true
    dailyDdLimit := 3 / 100
    useAdaptiveRisk := true
    riskReductionFactor := 1 / 2
    useOrderBlockSL := true
    useExtremeVolatility := true
    volMultMax := 3
    maxMlSamples := 500
    scan := defaultScanCfg }

/-- `get_session_rr` on a Paris hour. -/
def get_session_rr (cfg : BTConfig) (h : Nat) : ℚ :=
  if !cfg.useSessionRR then cfg.rrTakeProfit
  else if 8 ≤ h ∧ h < 11 then cfg.rrLondon
  else if 14 ≤ h ∧ h < 17 then cfg.rrNewyork
  else cfg.rrDefault

/-- The mutable state of the `backtest` loop. -/
structure BTState where
  equity : ℚ
  lastEntryBar : Int
  openTrades : List Trade
  history : List Event
  currentRisk : ℚ
  last3 : List Nat
  equityDayStart : ℚ
  currentDay : Option Nat
  cbActiveToday : Bool
  ml : Option MLState
  stats : Stats

/-- `backtest` initial state (`equity0 = 10_000`). -/
def initState (cfg : BTConfig) (ml0 : Option MLState) : BTState :=
  { equity := 10000
    lastEntryBar := -(cfg.cooldown : Int)
    openTrades := []
    history := []
    currentRisk := cfg.risk
    last3 := []
    equityDayStart := 10000
    currentDay := none
    cbActiveToday := false
    ml := ml0
    stats := {} }

/-- Whether this bar's low/high touches the position's stop loss. -/
def hitSL (tr : Trade) (hi lo : ℚ) : Bool :=
  match tr.side with
  | .buy => decide (lo ≤ tr.sl)
  | .sell => decide (tr.sl ≤ hi)

/-- Whether this bar's low/high touches the position's take profit. -/
def hitTP (tr : Trade) (hi lo : ℚ) : Bool :=
  match tr.side with
  | .buy => decide (tr.tp ≤ hi)
  | .sell => decide (lo ≤ tr.tp)

/-- The SL/TP resolution of one open trade on one bar, exactly as written
in the source: the both-touched case is its own branch and yields SL. -/
def resolveTrade (tr : Trade) (hi lo : ℚ) : Option (Action × ℚ) :=
  if hitSL tr hi lo && hitTP tr hi lo then some (.sl, tr.sl)
  else if hitSL tr hi lo then some (.sl, tr.sl)
  else if hitTP tr hi lo then some (.tp, tr.tp)
  else none

/-- Closing a resolved trade: realize P&L, append the ledger event, feed
the meta-labelling filter, update the adaptive-risk throttle. -/
def closeTrade (cfg : BTConfig) (day : Nat) (st : BTState) (tr : Trade)
    (kind : Action) (price : ℚ) : BTState :=
  let r := |tr.entry - tr.sl|
  let gain := if kind = .tp then cfg.rr * r else -r
  let pnl := gain / cfg.pip * cfg.pvLot
  let eq1 := st.equity + pnl
  let ev : Event := ⟨day, kind, tr.side, tr.entry, some price, some eq1, some pnl⟩
  let label : ℚ := if kind = .tp then 1 else 0
  let ml1 := match st.ml with
    | some m =>
      if m.useMeta && tr.features.isSome then
        some ( fit_partial cfg.maxMlSamples m [tr.features.getD []] [label])
      else some m
    | none => none
  let w : Nat := if kind = .tp then 1 else 0
  let (risk1, l31) :=
    if cfg.useAdaptiveRisk then
      let l := st.last3 ++ [w]
      let l := if 2 < l.length then l.drop 1 else l
      if l.length = 2 ∧ l.sum = 0 then (st.currentRisk * cfg.riskReductionFactor, l)
      else if kind = .tp ∧ st.currentRisk < cfg.risk * (9 / 10) then
        (min cfg.risk (st.currentRisk / cfg.riskReductionFactor), l)
      else (st.currentRisk, l)
    else (st.currentRisk, st.last3)
  { st with
    equity := eq1
    history := st.history ++ [ev]
    ml := ml1
    currentRisk := risk1
    last3 := l31 }

/-- One iteration of the open-trade management loop (`still_open` is the
`openTrades` accumulator of the fold). -/
def manageStep (cfg : BTConfig) (day : Nat) (hi lo : ℚ) (st : BTState) (tr : Trade) :
    BTState :=
  match resolveTrade tr hi lo with
  | some (kind, price) => closeTrade cfg day st tr kind price
  | none => { st with openTrades := st.openTrades ++ [tr] }

/-- The open-position management pass of one bar. -/
def manageOpen (cfg : BTConfig) (bars : List Bar) (i : Nat) (st : BTState) : BTState :=
  st.openTrades.foldl (manageStep cfg (dayAt bars i) (hiAt bars i) (loAt bars i))
    { st with openTrades := [] }

/-- The named rejection reasons of the entry pipeline. -/
inductive RejectReason where
  | cooldown
  | killzone
  | noFvg
  | neutralBias
  | atrFiltered
  | fvgBiasMismatch
  | extremeVol
  | mlFiltered
  | slTooClose
  | maxTrades
deriving Repr, DecidableEq

/-- Outcome of the entry pipeline on one bar. -/
inductive EntryOutcome where
  | reject (r : RejectReason)
  | accept (tr : Trade)
deriving Repr, DecidableEq

/-- The extreme-volatility condition (ATR above `volMultMax` times the
median of positive ATRs over the trailing 100 bars). -/
def extremeVolCheck (bars : List Bar) (i : Nat) (mult : ℚ) : Bool :=
  let av := atr bars 14 i
  let ws := i - 100
  let pos := ((List.range' ws (i - ws)).map (atr bars 14)).filter (fun a => decide (0 < a))
  let med := if pos.length = 0 then av else
    let s := pos.foldr (fun x acc => acc.orderedInsert (· ≤ ·) x) []
    if pos.length % 2 = 1 then s.getD (pos.length / 2) 0
    else (s.getD (pos.length / 2 - 1) 0 + s.getD (pos.length / 2) 0) / 2
  decide (0 < med) && decide (med * mult < av)

/-- Stop-loss construction for a buy: nearest bull order block strictly
inside `(max 0 (i-60), i)`, else the lowest swing low of `[i-60, i)`, else
a fixed 8-pip offset below the bar's low. -/
def slForBuy (cfg : BTConfig) (bars : List Bar) (i : Nat) : ℚ :=
  let lb := i - 60
  let obSL : Option ℚ :=
    if cfg.useOrderBlockSL then
      ((List.range' (lb + 1) (i - 1 - lb)).reverse).findSome? (fun j =>
        if ob_side bars 12 j = .bull then ob_low bars 12 j else none)
    else none
  match obSL with
  | some v => v
  | none =>
    let sidx := (List.range' lb (i - lb)).filter (fun j => swing_low bars 2 2 j)
    match sidx with
    | [] => loAt bars i - 8 * cfg.pip
    | _ => qmin (sidx.map (loAt bars))

/-- Stop-loss construction for a sell (mirror image). -/
def slForSell (cfg : BTConfig) (bars : List Bar) (i : Nat) : ℚ :=
  let lb := i - 60
  let obSL : Option ℚ :=
    if cfg.useOrderBlockSL then
      ((List.range' (lb + 1) (i - 1 - lb)).reverse).findSome? (fun j =>
        if ob_side bars 12 j = .bear then ob_high bars 12 j else none)
    else none
  match obSL with
  | some v => v
  | none =>
    let sidx := (List.range' lb (i - lb)).filter (fun j => swing_high bars 2 2 j)
    match sidx with
    | [] => hiAt bars i + 8 * cfg.pip
    | _ => qmax (sidx.map (hiAt bars))

/-- The entry-filter pipeline of one bar, in the source's precedence order;
`nowKz` is the wall-clock kill-zone flag used only inside the ML features. -/
def tryEntryDecision (cfg : BTConfig) (bars : List Bar) (nowKz : Bool) (st : BTState)
    (i : Nat) : EntryOutcome :=
  let px := clAt bars i
  if (i : Int) - st.lastEntryBar < (cfg.cooldown : Int) then .reject .cooldown
  else
    let kzRes : Option ℚ :=
      if cfg.useKillzones then
        if in_kill_zone (hourAt bars i) then some (get_session_rr cfg (hourAt bars i)) else none
      else some cfg.rr
    match kzRes with
    | none => .reject .killzone
    | some sessionRR =>
      let bias := infer_bias bars i
      match latest_fvg_confluence_row cfg.scan bars i 60 with
      | none => .reject .noFvg
      | some fvg =>
        if bias = .noside then .reject .neutralBias
        else if cfg.useAtrFilter &&
            (decide (0 < atr bars 14 i) &&
             decide (|fvg.top - fvg.bot| < atr bars 14 i * cfg.atrFvgMinRatio)) then
          .reject .atrFiltered
        else
          let sideRes : Option TradeSide :=
            match bias, fvg.side with
            | .bull, .bull => some .buy
            | .bear, .bear => some .sell
            | _, _ => none
          match sideRes with
          | none => .reject .fvgBiasMismatch
          | some side =>
            if cfg.useExtremeVolatility && cfg.useAtrFilter &&
                extremeVolCheck bars i cfg.volMultMax then .reject .extremeVol
            else
              let mlRes : Option (ℚ × Option (List ℚ)) :=
                match st.ml with
                | some m =>
                  let x := make_features_for_ml bars nowKz i fvg
                  let p := predict_proba m x
                  if p < cfg.mlThreshold then none else some (p, some x)
                | none => some (1 / 2, none)
              match mlRes with
              | none => .reject .mlFiltered
              | some (p, feats) =>
                let sl := match side with
                  | .buy => slForBuy cfg bars i
                  | .sell => slForSell cfg bars i
                let dist := match side with
                  | .buy => px - sl
                  | .sell => sl - px
                if dist ≤ 2 * cfg.pip then .reject .slTooClose
                else
                  let tp := match side with
                    | .buy => px + sessionRR * dist
                    | .sell => px - sessionRR * dist
                  if cfg.maxConcurrent ≤ st.openTrades.length then .reject .maxTrades
                  else .accept ⟨side, px, sl, tp, i, p, feats⟩

/-- Bump the rejection counter named by `r`. -/
def bumpStat (s : Stats) (r : RejectReason) : Stats :=
  match r with
  | .cooldown => { s with cooldown_filtered := s.cooldown_filtered + 1 }
  | .killzone => { s with killzone_filtered := s.killzone_filtered + 1 }
  | .noFvg => { s with no_fvg := s.no_fvg + 1 }
  | .neutralBias => { s with neutral_bias := s.neutral_bias + 1 }
  | .atrFiltered => { s with atr_filtered := s.atr_filtered + 1 }
  | .fvgBiasMismatch => { s with fvg_bias_mismatch := s.fvg_bias_mismatch + 1 }
  | .extremeVol => { s with extreme_volatility_filtered := s.extreme_volatility_filtered + 1 }
  | .mlFiltered => { s with ml_filtered := s.ml_filtered + 1 }
  | .slTooClose => { s with sl_too_close := s.sl_too_close + 1 }
  | .maxTrades => { s with max_trades_reached := s.max_trades_reached + 1 }

/-- Apply an entry-pipeline outcome: bump a counter, or open the position
and append its ENTRY event (equity unchanged). -/
def applyOutcome (bars : List Bar) (st : BTState) (i : Nat) (o : EntryOutcome) : BTState :=
  match o with
  | .reject r => { st with stats := bumpStat st.stats r }
  | .accept tr =>
    { st with
      stats := { st.stats with entries := st.stats.entries + 1 }
      openTrades := st.openTrades ++ [tr]
      lastEntryBar := (i : Int)
      history := st.history ++
        [⟨dayAt bars i, .entry, tr.side, tr.entry, none, some st.equity, none⟩] }

/-- The day-anchor reset at a calendar-day change. -/
def dayRoll (cfg : BTConfig) (bars : List Bar) (st : BTState) (i : Nat) : BTState :=
  if cfg.useCircuitBreaker && decide (st.currentDay ≠ some (dayAt bars i)) then
    { st with
      currentDay := some (dayAt bars i)
      equityDayStart := st.equity
      cbActiveToday := false }
  else st

/-- The circuit-breaker trip condition evaluated after the day roll. -/
def breakerTrips (cfg : BTConfig) (st : BTState) : Bool :=
  cfg.useCircuitBreaker && decide (st.equity ≠ st.equityDayStart) &&
    decide ((st.equity - st.equityDayStart) / st.equityDayStart < -cfg.dailyDdLimit)

/-- One bar of the `backtest` loop.  When the circuit breaker trips, the
`continue` of the source skips the whole bar body - including open-position
management - and only the trip counter/flag can change. -/
def stepBar (cfg : BTConfig) (bars : List Bar) (nowKz : Bool) (st : BTState) (i : Nat) :
    BTState :=
  let st1 := dayRoll cfg bars st i
  if breakerTrips cfg st1 then
    if st1.cbActiveToday then st1
    else
      { st1 with
        stats := { st1.stats with circuit_breaker_hit := st1.stats.circuit_breaker_hit + 1 }
        cbActiveToday := true }
  else
    let st2 := manageOpen cfg bars i st1
    applyOutcome bars st2 i (tryEntryDecision cfg bars nowKz st2 i)

/-- The loop `for i in range(50, n)`. -/
def runBT (cfg : BTConfig) (bars : List Bar) (nowKz : Bool) (ml0 : Option MLState) :
    BTState :=
  (List.range' 50 (bars.length - 50)).foldl (stepBar cfg bars nowKz) (initState cfg ml0)

/-- The final-bar handling: CLOSE events (NaN equity, no realized P&L) for
positions still open when the series ends. -/
def finalize (bars : List Bar) (st : BTState) : BTState :=
  if st.openTrades.isEmpty then st
  else
    { st with
      history := st.history ++ st.openTrades.map (fun tr =>
        ⟨dayAt bars (bars.length - 1), .close, tr.side, tr.entry,
          some (clAt bars (bars.length - 1)), none, none⟩) }

/-- The metrics dict of `backtest`. -/
structure Metrics where
  trades : Nat
  winrate : ℚ
  pnl : ℚ
  dd : ℚ
  eqFinal : ℚ
  stats : Stats
deriving Repr, DecidableEq

/-- Metrics computation: realized-equity series (NaNs dropped, `[equity0]`
when empty), TP/SL counts, win rate, peak-to-trough drawdown. -/
def metricsOf (st : BTState) : Metrics :=
  if st.history.isEmpty then ⟨0, 0, 0, 0, 10000, st.stats⟩
  else
    let eqs := st.history.filterMap (fun e => e.equity)
    let eqs := if eqs.isEmpty then [10000] else eqs
    let eqF := eqs.getLastD 10000
    let nTp := st.history.countP (fun e => decide (e.action = .tp))
    let nSl := st.history.countP (fun e => decide (e.action = .sl))
    let trades := nTp + nSl
    let winrate : ℚ := if 0 < trades then (nTp : ℚ) / (trades : ℚ) * 100 else 0
    let mdd := (eqs.foldl (fun pm v =>
      let pk := max pm.1 v
      (pk, if 0 < pk then min pm.2 ((v - pk) / pk) else pm.2)) ((-(10 ^ 18 : ℚ)), 0)).2
    ⟨trades, winrate, eqF - 10000, mdd * 100, eqF, st.stats⟩

/-- `backtest`: run the loop, close leftovers, report metrics and ledger. -/
def backtestRun (cfg : BTConfig) (bars : List Bar) (nowKz : Bool) (ml0 : Option MLState) :
    Metrics × List Event :=
  let st := finalize bars (runBT cfg bars nowKz ml0)
  (metricsOf st, st.history)

/-- Helper for concrete series: one bar of day 0, hour 9. -/
def qbar (o h l c : ℚ) : Bar := ⟨0, 9, o, h, l, c, 5⟩

/-- Concrete 60-bar series for the circuit-breaker scenario: two buy
entries (bars 50 and 55), a 5% loss on bar 56 trips the breaker, bar 57
touches the surviving position's stop while the breaker skips the bar. -/
def cbBars : List Bar :=
  List.replicate 10 (qbar 1 (101/100) (99/100) 1) ++
  [qbar 1 (101/100) (9/10) 1] ++
  List.replicate 9 (qbar 1 (101/100) (99/100) 1) ++
  [qbar 1 (102/100) (99/100) 1] ++
  List.replicate 26 (qbar 1 (101/100) (99/100) 1) ++
  [qbar (103/100) (106/100) (102/100) (105/100),
   qbar (105/100) (108/100) (103/100) (106/100),
   qbar (105/100) (108/100) (102/100) (103/100),
   qbar (102/100) (104/100) (1015/1000) (1025/1000)] ++
  List.replicate 4 (qbar 1 (103/100) 1 (1015/1000)) ++
  [qbar (102/100) (103/100) (1018/1000) (1025/1000),
   qbar (102/100) (103/100) (1015/1000) (102/100),
   qbar 1 (101/100) (89/100) 1] ++
  List.replicate 2 (qbar 1 (101/100) (99/100) 1)

/-- Configuration of the circuit-breaker scenario: defaults with kill
zones off and the mitigation / structure / ATR-family filters off. -/
def cfgCB : BTConfig :=
  { defaultCfg with
    useKillzones := false
    useAtrFilter := false
    useExtremeVolatility := false
    scan := { defaultScanCfg with
      useFvgMitigationFilter := false
      useMarketStructureFilter := false } }

/-- Concrete 60-bar series for the ML-filter comparison: without the
filter the bar-50 entry happens and stays open to the end (0 counted
trades); with the filter the bar-50 entry is vetoed, bar 52 enters
instead and hits its take profit on bar 55 (1 counted trade). -/
def mlBars : List Bar :=
  List.replicate 10 (qbar 1 (1005/1000) (995/1000) 1) ++
  [qbar 1 (1005/1000) (985/1000) 1] ++
  List.replicate 9 (qbar 1 (1005/1000) (995/1000) 1) ++
  [qbar 1 (101/100) (995/1000) 1] ++
  List.replicate 24 (qbar 1 (1005/1000) (995/1000) 1) ++
  [qbar 1 (105/100) (995/1000) 1,
   qbar 1 (1055/1000) (999/1000) (1054/1000),
   qbar (1054/1000) (1065/1000) (105/100) (106/100),
   qbar (1063/1000) (1065/1000) (1062/1000) (1064/1000),
   qbar (1005/1000) (1005/1000) (995/1000) 1,
   qbar (1058/1000) (1062/1000) (1056/1000) (106/100),
   qbar (105/100) (1052/1000) (1045/1000) (1046/1000),
   qbar (103/100) (1032/1000) (1018/1000) (102/100)] ++
  List.replicate 2 (qbar (102/100) (1025/1000) (1015/1000) (102/100)) ++
  [qbar (109/100) (110/100) (1085/1000) (109/100)] ++
  List.replicate 4 (qbar (109/100) (1095/1000) (1085/1000) (109/100))

/-- A fresh `MLFilter(model_path=None, use_meta_labelling=False)` with
sklearn available: cold heuristic mode. -/
def mlFresh : MLState :=
  { enabled := true
    useMeta := false
    loadedFromFile := false
    X := []
    y := []
    minSamples := 40
    isTrained := false
    predictF := fun _ => 0
    fitF := fun _ _ _ => 0 }

/-- Configuration of the ML comparison: defaults with kill zones, circuit
breaker, order-block SL and the mitigation / structure / ATR-family
filters off, and the ML threshold raised to the bar-52 heuristic value. -/
def cfgML : BTConfig :=
  { defaultCfg with
    useKillzones := false
    useAtrFilter := false
    useExtremeVolatility := false
    useCircuitBreaker := false
    useOrderBlockSL := false
    mlThreshold := 4/5
    scan := { defaultScanCfg with
      useFvgMitigationFilter := false
      useMarketStructureFilter := false } }

/-- The last `k` elements of a list (semantics of `l[-k:]` for `k ≥ 1`). -/
def lastN {α : Type} (k : Nat) (l : List α) : List α := l.drop (l.length - k)

/-- A sequence of `fit_partial` calls applied to a filter state. -/
def runCalls (cap : Nat) (st : MLState) (calls : List (List (List ℚ) × List ℚ)) : MLState :=
  calls.foldl (fun s c => fit_partial cap s c.1 c.2) st

/-- The realized P&L carried by a ledger event (0 when it realizes none). -/
def evPnl (e : Event) : ℚ := e.pnl.getD 0

/-- Total realized P&L of a ledger. -/
def pnlSum (h : List Event) : ℚ := (h.map evPnl).sum

/-- Ledger-accounting discipline of a single event given the running
realized equity `e0`: ENTRY events carry the unchanged equity, TP/SL
events carry a realized P&L and the equity shifted by exactly it, CLOSE
events carry no equity (NaN) and no realized P&L. -/
def eventOKAt (e0 : ℚ) (e : Event) : Prop :=
  match e.action with
  | .entry => e.equity = some e0 ∧ e.pnl = none
  | .close => e.equity = none ∧ e.pnl = none
  | _ => ∃ p, e.pnl = some p ∧ e.equity = some (e0 + p)

/-- Ledger-accounting discipline of a whole ledger starting from `e0`. -/
def eventsOK (e0 : ℚ) : List Event → Prop
  | [] => True
  | e :: t => eventOKAt e0 e ∧ eventsOK (e0 + evPnl e) t

/-- The last equity value carried by the ledger (`d` when none is). -/
def lastEqD (h : List Event) (d : ℚ) : ℚ :=
  (h.filterMap (fun e => e.equity)).getLastD d

/-- Four bars whose bull gap at index 2 is never re-entered by the only
later bar, yet is marked mitigated (by its own creation bar). -/
def mitBarsCE : List Bar :=
  [qbar 1 1 (9/10) 1, qbar 1 1 (9/10) 1,
   qbar (102/100) (102/100) (101/100) (102/100),
   qbar (3/2) (8/5) (3/2) (8/5)]

/-- Four flat bars with a lone peak at index 2: too short for the peak to
be a fractal, until one more bar arrives. -/
def swBarsCE : List Bar :=
  [qbar 1 1 1 1, qbar 1 1 1 1, qbar 1 2 1 1, qbar 1 1 1 1]

/-- A swing high at index 2 followed by a quiet plateau and a breakout
close at index 25, twenty-three bars after the swing. -/
def bosBarsCE : List Bar :=
  List.replicate 2 (qbar 1 1 1 1) ++ [qbar 1 (3/2) 1 1] ++
    List.replicate 22 (qbar 1 1 1 1) ++ [qbar 1 2 1 2]

attribute [local semireducible] Rat.add Rat.mul Rat.inv Rat.sub Rat.ofScientific

set_option maxRecDepth 1000000

set_option maxHeartbeats 4000000

/-- Pointwise-equal step functions fold identically. -/
theorem foldl_congr_on {α β : Type} (l : List α) (f g : β → α → β) (init : β)
    (h : ∀ a ∈ l, ∀ b, f b a = g b a) : l.foldl f init = l.foldl g init := by
  induction l generalizing init with
  | nil => rfl
  | cons a t ih =>
    simp only [List.foldl_cons]
    rw [h a (by simp)]
    exact ih _ (fun b hb c => h b (by simp [hb]) c)

/-- C5: whenever a bar touches both the stop loss and the take profit of
an open position, the position resolves as an SL exit at the stop price,
the management loop closes it through `closeTrade` with kind SL, and the
realized P&L is the loss of one R (never the TP gain). -/
theorem c5_sl_tp_tiebreak (cfg : BTConfig) (day : Nat) (st : BTState) (tr : Trade)
    (hi lo : ℚ) (hsl : hitSL tr hi lo = true) (htp : hitTP tr hi lo = true) :
    resolveTrade tr hi lo = some (.sl, tr.sl) ∧
    manageStep cfg day hi lo st tr = closeTrade cfg day st tr .sl tr.sl ∧
    (closeTrade cfg day st tr .sl tr.sl).equity
      = st.equity - |tr.entry - tr.sl| / cfg.pip * cfg.pvLot := by
  have h1 : resolveTrade tr hi lo = some (.sl, tr.sl) := by
    simp [resolveTrade, hsl, htp]
  refine ⟨h1, by simp [manageStep, h1], ?_⟩
  simp only [closeTrade]
  have : ((.sl : Action) = .tp) = False := by simp
  simp only [this, if_false, reduceCtorEq]
  ring

/-- Witness for C5 on a concrete bar touching both levels. -/
theorem c5_witness :
    hitSL ⟨.buy, 1, 1/2, 2, 0, 1/2, none⟩ 3 0 = true ∧
    hitTP ⟨.buy, 1, 1/2, 2, 0, 1/2, none⟩ 3 0 = true ∧
    resolveTrade ⟨.buy, 1, 1/2, 2, 0, 1/2, none⟩ 3 0 = some (.sl, 1/2) := by
  refine ⟨by decide, by decide, ?_⟩
  exact (c5_sl_tp_tiebreak defaultCfg 0 (initState defaultCfg none)
    ⟨.buy, 1, 1/2, 2, 0, 1/2, none⟩ 3 0 (by decide) (by decide)).1

/-- C10: a filter constructed with meta-labelling enabled and no persisted
model loaded predicts exactly 0.99 on every feature vector, whatever its
buffers, training flag or fitted model hold, so the default 0.40 threshold
gate never rejects. -/
theorem c10_meta_short_circuit (st : MLState) (x : List ℚ)
    (h1 : st.useMeta = true) (h2 : st.loadedFromFile = false) :
    predict_proba st x = 99 / 100 ∧ ¬(predict_proba st x < defaultCfg.mlThreshold) := by
  have hp : predict_proba st x = 99 / 100 := by
    simp [predict_proba, h1, h2]
  refine ⟨hp, ?_⟩
  rw [hp]
  show ¬((99 : ℚ) / 100 < 2 / 5)
  norm_num

/-- Witness for C10 on a concrete filter state and feature vector. -/
theorem c10_witness :
    ({ mlFresh with useMeta := true } : MLState).useMeta = true ∧
    ({ mlFresh with useMeta := true } : MLState).loadedFromFile = false ∧
    predict_proba { mlFresh with useMeta := true } [3, 1/7] = 99 / 100 := by
  exact ⟨rfl, rfl,
    (c10_meta_short_circuit { mlFresh with useMeta := true } [3, 1/7] rfl rfl).1⟩

theorem lastN_length_le {α : Type} (k : Nat) (l : List α) : (lastN k l).length ≤ k := by
  simp only [lastN, List.length_drop]
  omega

theorem lastN_of_le {α : Type} {k : Nat} {l : List α} (h : l.length ≤ k) : lastN k l = l := by
  simp only [lastN]
  rw [Nat.sub_eq_zero_of_le h, List.drop_zero]

theorem lastN_length_eq {α β : Type} (k : Nat) (l : List α) (l' : List β)
    (h : l.length = l'.length) : (lastN k l).length = (lastN k l').length := by
  simp [lastN, List.length_drop, h]

/-- Dropping past the left part of an append lands in the right part. -/
theorem drop_append_ge {α : Type} (l l' : List α) (n : Nat) (h : l.length ≤ n) :
    (l ++ l').drop n = l'.drop (n - l.length) := by
  obtain ⟨m, rfl⟩ : ∃ m, n = l.length + m := ⟨n - l.length, by omega⟩
  rw [List.drop_append]
  congr 1
  omega

/-- Truncating to the last `k` absorbs an earlier truncation. -/
theorem lastN_append_lastN {α : Type} (k : Nat) (A X : List α) :
    lastN k (lastN k A ++ X) = lastN k (A ++ X) := by
  by_cases hA : A.length ≤ k
  · rw [lastN_of_le hA]
  · have hTA : (lastN k A).length = k := by
      simp only [lastN, List.length_drop]
      omega
    have outer : ∀ (M : List α), lastN k (M ++ X) = (M ++ X).drop (M.length + X.length - k) := by
      intro M
      simp [lastN, List.length_append]
    rw [outer, outer, hTA]
    by_cases hX : k ≤ X.length
    · rw [drop_append_ge _ _ _ (by omega), drop_append_ge _ _ _ (by omega), hTA]
      congr 1
      omega
    · have hidx : k + X.length - k = X.length := by omega
      rw [hidx, List.drop_append_of_le_length (by omega),
        List.drop_append_of_le_length (by omega)]
      simp only [lastN, List.drop_drop]
      congr 2
      omega

/-- C8: a `fit_partial` call sequence on a fresh enabled filter keeps both
buffers equal to the `cap` most recent samples of the full appended stream
(FIFO eviction), so each buffer never exceeds the cap. -/
theorem c8_rolling_window (cap : Nat) (st0 : MLState)
    (calls : List (List (List ℚ) × List ℚ))
    (hcap : 0 < cap) (hen : st0.enabled = true) (hX : st0.X = []) (hy : st0.y = [])
    (hal : ∀ c ∈ calls, c.1.length = c.2.length) :
    (runCalls cap st0 calls).X = lastN cap ((calls.map Prod.fst).join) ∧
    (runCalls cap st0 calls).y = lastN cap ((calls.map Prod.snd).join) ∧
    (runCalls cap st0 calls).X.length ≤ cap ∧
    (runCalls cap st0 calls).y.length ≤ cap := by
  have key : ∀ (cs : List (List (List ℚ) × List ℚ)) (st : MLState)
      (A : List (List ℚ)) (B : List ℚ),
      st.enabled = true → st.X = lastN cap A → st.y = lastN cap B →
      A.length = B.length → (∀ c ∈ cs, c.1.length = c.2.length) →
      (runCalls cap st cs).X = lastN cap (A ++ (cs.map Prod.fst).join) ∧
      (runCalls cap st cs).y = lastN cap (B ++ (cs.map Prod.snd).join) := by
    intro cs
    induction cs with
    | nil =>
      intro st A B _ hsX hsy _ _
      simp only [runCalls, List.foldl_nil, List.map_nil, List.join_nil, List.append_nil]
      exact ⟨hsX, hsy⟩
    | cons c t ih =>
      intro st A B hsen hsX hsy hAB hcal
      have hstep : ( fit_partial cap st c.1 c.2).X = lastN cap (A ++ c.1) ∧
          ( fit_partial cap st c.1 c.2).y = lastN cap (B ++ c.2) ∧
          ( fit_partial cap st c.1 c.2).enabled = true := by
        have hc1 : c.1.length = c.2.length := hcal c (by simp)
        have hXeq : lastN cap (lastN cap A ++ c.1) = lastN cap (A ++ c.1) :=
          lastN_append_lastN cap A c.1
        have hyeq : lastN cap (lastN cap B ++ c.2) = lastN cap (B ++ c.2) :=
          lastN_append_lastN cap B c.2
        have hlena : (lastN cap A).length = (lastN cap B).length :=
          lastN_length_eq cap A B hAB
        have hX2 : (if cap < (lastN cap A ++ c.1).length then
              pySliceLast cap (lastN cap A ++ c.1) else lastN cap A ++ c.1)
            = lastN cap (A ++ c.1) := by
          split
          · rw [pySliceLast, if_neg (by omega), ← hXeq]
            rfl
          · rw [← hXeq]
            exact (lastN_of_le (by omega)).symm
        have hy2 : (if cap < (lastN cap A ++ c.1).length then
              pySliceLastQ cap (lastN cap B ++ c.2) else lastN cap B ++ c.2)
            = lastN cap (B ++ c.2) := by
          have h3 : (lastN cap B ++ c.2).length = (lastN cap A ++ c.1).length := by
            simp only [List.length_append, hlena, hc1]
          split
          · rw [pySliceLastQ, if_neg (by omega), ← hyeq]
            rfl
          · rw [← hyeq]
            exact (lastN_of_le (by omega)).symm
        simp only [ fit_partial, hsen, Bool.not_true, Bool.false_eq_true, if_false, hsX, hsy,
          hX2, hy2]
        refine ⟨?_, ?_, ?_⟩ <;> split <;> first | rfl | exact hsen
      have hrc : runCalls cap st (c :: t) = runCalls cap ( fit_partial cap st c.1 c.2) t := rfl
      rw [hrc]
      have hlen2 : (A ++ c.1).length = (B ++ c.2).length := by
        simp [List.length_append, hAB, hcal c (by simp)]
      have := ih ( fit_partial cap st c.1 c.2) (A ++ c.1) (B ++ c.2)
        hstep.2.2 hstep.1 hstep.2.1 hlen2 (fun d hd => hcal d (by simp [hd]))
      simpa [List.append_assoc] using this
  have hfin := key calls st0 [] [] hen (by simpa [lastN] using hX)
    (by simpa [lastN] using hy) rfl hal
  simp only [List.nil_append] at hfin
  refine ⟨hfin.1, hfin.2, ?_, ?_⟩
  · rw [hfin.1]; exact lastN_length_le _ _
  · rw [hfin.2]; exact lastN_length_le _ _

/-- Witness for C8: three samples through a cap-2 filter keep the last
two, in order. -/
theorem c8_witness :
    (0 < 2 ∧ mlFresh.enabled = true) ∧
    (runCalls 2 mlFresh [([[1], [2]], [1, 0]), ([[3]], [1])]).X
      = lastN 2 (([([[1], [2]], [1, 0]), ([[3]], [1])].map Prod.fst).join) ∧
    (runCalls 2 mlFresh [([[1], [2]], [1, 0]), ([[3]], [1])]).X.length ≤ 2 := by
  have h := c8_rolling_window 2 mlFresh [([[1], [2]], [1, 0]), ([[3]], [1])]
    (by decide) rfl rfl rfl (by decide)
  exact ⟨⟨by decide, rfl⟩, h.1, h.2.2.1⟩

/-- C4 (amended): on a bar where the circuit breaker trips, the `continue`
skips the whole bar body, so not only are new entries suppressed but
open-position management does not run either: the ledger, the open
positions and the equity are all left untouched on that bar. -/
theorem c4_breaker_skips_whole_bar (cfg : BTConfig) (bars : List Bar) (kz : Bool)
    (st : BTState) (i : Nat) (h : breakerTrips cfg (dayRoll cfg bars st i) = true) :
    (stepBar cfg bars kz st i).history = st.history ∧
    (stepBar cfg bars kz st i).openTrades = st.openTrades ∧
    (stepBar cfg bars kz st i).equity = st.equity ∧
    (stepBar cfg bars kz st i).stats.entries = st.stats.entries := by
  have hroll : (dayRoll cfg bars st i).history = st.history ∧
      (dayRoll cfg bars st i).openTrades = st.openTrades ∧
      (dayRoll cfg bars st i).equity = st.equity ∧
      (dayRoll cfg bars st i).stats = st.stats := by
    unfold dayRoll
    split <;> exact ⟨rfl, rfl, rfl, rfl⟩
  have hent : (dayRoll cfg bars st i).stats.entries = st.stats.entries := by
    rw [hroll.2.2.2]
  simp only [stepBar, h, if_true]
  split
  · exact ⟨hroll.1, hroll.2.1, hroll.2.2.1, hent⟩
  · exact ⟨hroll.1, hroll.2.1, hroll.2.2.1, hent⟩

/-- Witness for C4 (amended) on a concrete tripped state. -/
theorem c4_witness :
    breakerTrips cfgCB (dayRoll cfgCB cbBars
      { initState cfgCB none with
          equity := 9000, equityDayStart := 10000, currentDay := some 0,
          openTrades := [⟨.buy, 41/40, 9/10, 5/4, 50, 1/2, none⟩] } 57) = true ∧
    (stepBar cfgCB cbBars false
      { initState cfgCB none with
          equity := 9000, equityDayStart := 10000, currentDay := some 0,
          openTrades := [⟨.buy, 41/40, 9/10, 5/4, 50, 1/2, none⟩] } 57).openTrades
      = [⟨.buy, 41/40, 9/10, 5/4, 50, 1/2, none⟩] := by
  refine ⟨by decide, ?_⟩
  exact (c4_breaker_skips_whole_bar cfgCB cbBars false _ 57 (by decide)).2.1

/-- Counterexample to C4 as stated: in the concrete `cbBars` run the
breaker trips (once) on bar 57, whose low touches the surviving buy
position's stop loss, yet the bar leaves the ledger and the open position
untouched; the full run ends with exactly one SL event - the bar-56 loss
that tripped the breaker - and the touched position is only flushed as a
CLOSE at the end of the series. -/
theorem c4_counterexample :
    breakerTrips cfgCB (dayRoll cfgCB cbBars
      ((List.range' 50 7).foldl (stepBar cfgCB cbBars false) (initState cfgCB none)) 57)
      = true ∧
    ((List.range' 50 7).foldl (stepBar cfgCB cbBars false) (initState cfgCB none)).openTrades
      = [⟨.buy, 41/40, 9/10, 5/4, 50, 1/2, none⟩] ∧
    hitSL ⟨.buy, 41/40, 9/10, 5/4, 50, 1/2, none⟩ (hiAt cbBars 57) (loAt cbBars 57) = true ∧
    (stepBar cfgCB cbBars false
      ((List.range' 50 7).foldl (stepBar cfgCB cbBars false) (initState cfgCB none)) 57).history
      = ((List.range' 50 7).foldl (stepBar cfgCB cbBars false) (initState cfgCB none)).history ∧
    (runBT cfgCB cbBars false none).stats.circuit_breaker_hit = 1 ∧
    ((backtestRun cfgCB cbBars false none).2.countP (fun e => decide (e.action = .sl)) = 1 ∧
     (backtestRun cfgCB cbBars false none).2.countP (fun e => decide (e.action = .tp)) = 0 ∧
     (backtestRun cfgCB cbBars false none).2.countP (fun e => decide (e.action = .close)) = 1) := by
  decide

/-- Counterexample to C6 as stated: on the concrete `mlBars` series and
`cfgML` configuration, the run with the ML filter bypassed (`ml=None`)
reports 0 trades while the otherwise-identical run with the ML filter
enabled reports 1 trade (the early veto frees the cooldown for a later,
winning entry), for either value of the wall-clock kill-zone flag. -/
theorem c6_counterexample :
    (backtestRun cfgML mlBars false none).1.trades = 0 ∧
    (backtestRun cfgML mlBars true none).1.trades = 0 ∧
    (backtestRun cfgML mlBars false (some mlFresh)).1.trades = 1 ∧
    (backtestRun cfgML mlBars true (some mlFresh)).1.trades = 1 := by
  refine ⟨by decide, by decide, by decide, by decide⟩

/-- C2 (amended): `fvg_mitigated[j]` is true exactly when an FVG is
detected at `j` and some bar at index `i ≥ j` - the creation bar itself
included - has its low/high range overlap the gap zone; the forward scan
is unbounded and nothing restricts it to bars strictly after `j`. -/
theorem c2_mitigation_characterization (bars : List Bar) (j : Nat) :
    fvg_mitigated bars j = true ↔
      ((fvg_side bars j = .bull ∧ ∃ i, j ≤ i ∧ i < bars.length ∧
          loAt bars i ≤ loAt bars j ∧ hiAt bars (j - 2) ≤ hiAt bars i) ∨
       (fvg_side bars j = .bear ∧ ∃ i, j ≤ i ∧ i < bars.length ∧
          hiAt bars j ≤ hiAt bars i ∧ loAt bars i ≤ loAt bars (j - 2))) := by
  unfold fvg_mitigated
  cases hside : fvg_side bars j with
  | noside => simp [hside]
  | bull =>
    simp only [hside, List.any_eq_true]
    constructor
    · rintro ⟨i, hmem, htouch⟩
      obtain ⟨hji, hub⟩ := List.mem_range'_1.mp hmem
      simp only [mitTouchBull, Bool.and_eq_true, decide_eq_true_eq] at htouch
      exact Or.inl ⟨trivial, i, hji, by omega, htouch.1, htouch.2⟩
    · rintro (⟨_, i, hji, hlt, h1, h2⟩ | ⟨hcon, _⟩)
      · refine ⟨i, List.mem_range'_1.mpr ⟨hji, by omega⟩, ?_⟩
        simp only [mitTouchBull, Bool.and_eq_true, decide_eq_true_eq]
        exact ⟨h1, h2⟩
      · exact absurd hcon (by decide)
  | bear =>
    simp only [hside, List.any_eq_true]
    constructor
    · rintro ⟨i, hmem, htouch⟩
      obtain ⟨hji, hub⟩ := List.mem_range'_1.mp hmem
      simp only [mitTouchBear, Bool.and_eq_true, decide_eq_true_eq] at htouch
      exact Or.inr ⟨trivial, i, hji, by omega, htouch.1, htouch.2⟩
    · rintro (⟨hcon, _⟩ | ⟨_, i, hji, hlt, h1, h2⟩)
      · exact absurd hcon (by decide)
      · refine ⟨i, List.mem_range'_1.mpr ⟨hji, by omega⟩, ?_⟩
        simp only [mitTouchBear, Bool.and_eq_true, decide_eq_true_eq]
        exact ⟨h1, h2⟩

/-- Counterexample to C2 as stated: a concrete bull gap whose zone is
never touched by any bar strictly after its creation, yet it is marked
mitigated (its own creation bar overlaps the zone by construction). -/
theorem c2_counterexample :
    fvg_side mitBarsCE 2 = .bull ∧
    fvg_mitigated mitBarsCE 2 = true ∧
    mitBarsCE.length = 4 ∧
    mitTouchBull mitBarsCE 2 3 = false := by
  decide

/-- Counterexample to C1 as stated: enriching the 4-bar prefix and the
5-bar extension of the same series gives different `swing_high` values at
index 2 (< 4), because the fractal window looks two bars ahead. -/
theorem c1_counterexample :
    swing_high (swBarsCE ++ [qbar 1 1 1 1]) 2 2 2 = true ∧
    swing_high swBarsCE 2 2 2 = false ∧
    2 < swBarsCE.length := by
  decide

/-- Counterexample to C9 as stated: `bos_up` fires at index 25 of
`bosBarsCE` although the most recent swing high is 23 bars old, beyond
the default `BOS_MAX_AGE` of 20, with the recency toggle at its enabled
default - `detect_bos` never consults swing age. -/
theorem c9_counterexample :
    bos_up bosBarsCE 25 = true ∧
    lastSHI bosBarsCE 25 = some 2 ∧
    defaultScanCfg.useBosRecencyFilter = true ∧
    defaultScanCfg.bosMaxAge < 25 - 2 := by
  decide

/-- The last-match fold of `detect_bos` computes the last filtered element. -/
theorem foldl_lastOpt {β : Type} (p : Nat → Bool) (f : Nat → β) :
    ∀ (l : List Nat) (init : Option β),
      l.foldl (fun acc j => if p j then some (f j) else acc) init
        = ((l.filter p).getLast?).elim init (fun j => some (f j)) := by
  intro l
  induction l with
  | nil => intro init; simp
  | cons a t ih =>
    intro init
    simp only [List.foldl_cons, List.filter_cons]
    by_cases hpa : p a
    · simp only [hpa, if_true, ih, List.getLast?_cons]
      cases ht : (t.filter p).getLast? with
      | none => simp
      | some b => simp
    · simp [hpa, ih]

/-- Characterization of the last index below `n` satisfying `p`. -/
theorem range_filter_getLast_eq_some (p : Nat → Bool) :
    ∀ (n j : Nat), ((List.range n).filter p).getLast? = some j ↔
      (j < n ∧ p j = true ∧ ∀ k, j < k → k < n → p k = false) := by
  intro n
  induction n with
  | zero => intro j; simp
  | succ n ih =>
    intro j
    rw [List.range_succ, List.filter_append, List.filter_cons, List.filter_nil]
    cases hpn : p n with
    | true =>
      rw [if_pos rfl, List.getLast?_concat]
      constructor
      · intro h
        have hj : j = n := (Option.some.inj h).symm
        subst hj
        exact ⟨Nat.lt_succ_self j, hpn, fun k hk1 hk2 => by omega⟩
      · rintro ⟨hjn, hpj, hnone⟩
        have hj : j = n := by
          by_contra hne
          have hjl : j < n := by omega
          have hc := hnone n hjl (Nat.lt_succ_self n)
          rw [hpn] at hc
          cases hc
        subst hj
        rfl
    | false =>
      rw [if_neg (by simp), List.append_nil, ih]
      constructor
      · rintro ⟨h1, h2, h3⟩
        refine ⟨by omega, h2, fun k hk1 hk2 => ?_⟩
        rcases Nat.lt_or_ge k n with hk | hk
        · exact h3 k hk1 hk
        · have hkn : k = n := by omega
          subst hkn
          exact hpn
      · rintro ⟨h1, h2, h3⟩
        have hjn : j ≠ n := by
          rintro rfl
          rw [h2] at hpn
          cases hpn
        exact ⟨by omega, h2, fun k hk1 hk2 => h3 k hk1 (by omega)⟩

/-- C9 (amended): the `bos_up` annotation fires exactly when the close
exceeds the most recent swing high, with no constraint whatsoever on the
swing's age; recency is enforced downstream by the confluence scanner,
whose result (when the recency toggle is on) always carries a BOS bar
within `bosMaxAge` bars of the current index. -/
theorem c9_bos_recency :
    (∀ (bars : List Bar) (i : Nat), bos_up bars i = true ↔
      (i < bars.length ∧ ∃ j, j ≤ i ∧ swing_high bars 2 2 j = true ∧
        (∀ k, j < k → k ≤ i → swing_high bars 2 2 k = false) ∧
        hiAt bars j < clAt bars i)) ∧
    (∀ (sc : ScanCfg) (bars : List Bar) (idx L : Nat) (c : Confluence),
      sc.useBosRecencyFilter = true →
      latest_fvg_confluence_row sc bars idx L = some c →
      idx - c.idx_bos ≤ sc.bosMaxAge) := by
  constructor
  · intro bars i
    unfold bos_up lastSH
    rw [foldl_lastOpt]
    cases hg : ((List.range (i + 1)).filter (swing_high bars 2 2)).getLast? with
    | none =>
      simp only [hg, Option.elim]
      constructor
      · intro h
        simp at h
      · rintro ⟨hlen, j, hj, hsw, hmax, hlt⟩
        have hsome := (range_filter_getLast_eq_some (swing_high bars 2 2) (i + 1) j).mpr
          ⟨by omega, hsw, fun k hk1 hk2 => hmax k hk1 (by omega)⟩
        rw [hg] at hsome
        cases hsome
    | some j0 =>
      obtain ⟨hj0lt, hsw0, hmax0⟩ :=
        (range_filter_getLast_eq_some (swing_high bars 2 2) (i + 1) j0).mp hg
      simp only [hg, Option.elim]
      rw [Bool.and_eq_true, decide_eq_true_eq, decide_eq_true_eq]
      constructor
      · rintro ⟨hlen, hlt⟩
        exact ⟨hlen, j0, by omega, hsw0,
          fun k hk1 hk2 => hmax0 k hk1 (by omega), hlt⟩
      · rintro ⟨hlen, j, hj, hsw, hmax, hlt⟩
        have hsome := (range_filter_getLast_eq_some (swing_high bars 2 2) (i + 1) j).mpr
          ⟨by omega, hsw, fun k hk1 hk2 => hmax k hk1 (by omega)⟩
        rw [hg] at hsome
        obtain rfl : j0 = j := Option.some.inj hsome
        exact ⟨hlen, hlt⟩
  · intro sc bars idx L c hrec h
    unfold latest_fvg_confluence_row at h
    obtain ⟨j, hjmem, hj⟩ := List.exists_of_findSome?_eq_some h
    simp only [scanCandidate] at hj
    repeat' split at hj
    any_goals cases hj
    all_goals rename_i hguard hdist hstruct
    all_goals rw [hrec, Bool.true_and] at hguard
    all_goals simp only [decide_eq_true_eq] at hguard
    all_goals exact Nat.le_of_not_lt hguard

/-- Witness for C9 on the concrete `cbBars` series at index 50. -/
theorem c9_witness :
    cfgCB.scan.useBosRecencyFilter = true ∧
    latest_fvg_confluence_row cfgCB.scan cbBars 50 60
      = some ⟨.bull, 103/100, 101/100, 51/50, 48, 50⟩ ∧
    50 - (⟨Side.bull, 103/100, 101/100, 51/50, 48, 50⟩ : Confluence).idx_bos
      ≤ cfgCB.scan.bosMaxAge := by
  refine ⟨rfl, by decide, ?_⟩
  exact c9_bos_recency.2 cfgCB.scan cbBars 50 60 _ rfl (by decide)

theorem wf_lo_le_hi {bars : List Bar} (hwf : ∀ b ∈ bars, b.lo ≤ b.hi) {j : Nat}
    (hj : j < bars.length) : loAt bars j ≤ hiAt bars j := by
  unfold loAt hiAt
  rw [List.getD_eq_getElem _ _ hj]
  exact hwf _ (List.getElem_mem hj)

theorem fvg_side_bull {bars : List Bar} {j : Nat} (h : fvg_side bars j = .bull) :
    fvg_bull bars j = true := by
  unfold fvg_side at h
  by_cases hb : fvg_bear bars j = true
  · rw [if_pos hb] at h
    cases h
  · rw [if_neg hb] at h
    by_cases hb2 : fvg_bull bars j = true
    · exact hb2
    · rw [if_neg hb2] at h
      cases h

theorem fvg_side_bear {bars : List Bar} {j : Nat} (h : fvg_side bars j = .bear) :
    fvg_bear bars j = true := by
  unfold fvg_side at h
  by_cases hb : fvg_bear bars j = true
  · exact hb
  · rw [if_neg hb] at h
    by_cases hb2 : fvg_bull bars j = true
    · rw [if_pos hb2] at h
      cases h
    · rw [if_neg hb2] at h
      cases h

theorem mitigated_of_side (bars : List Bar) (hwf : ∀ b ∈ bars, b.lo ≤ b.hi) (j : Nat)
    (hside : fvg_side bars j ≠ .noside) : fvg_mitigated bars j = true := by
  cases hs : fvg_side bars j with
  | noside => exact absurd hs hside
  | bull =>
    have hb : fvg_bull bars j = true := fvg_side_bull hs
    rw [fvg_bull, Bool.and_eq_true, Bool.and_eq_true] at hb
    have h2j : 2 ≤ j := of_decide_eq_true hb.1.1
    have hjlen : j < bars.length := of_decide_eq_true hb.1.2
    have hgap : hiAt bars (j - 2) < loAt bars j := of_decide_eq_true hb.2
    unfold fvg_mitigated
    rw [hs, List.any_eq_true]
    refine ⟨j, List.mem_range'_1.mpr ⟨Nat.le_refl j, by omega⟩, ?_⟩
    rw [mitTouchBull, Bool.and_eq_true]
    exact ⟨decide_eq_true (le_refl _),
      decide_eq_true (le_trans (le_of_lt hgap) (wf_lo_le_hi hwf hjlen))⟩
  | bear =>
    have hb : fvg_bear bars j = true := fvg_side_bear hs
    rw [fvg_bear, Bool.and_eq_true, Bool.and_eq_true] at hb
    have h2j : 2 ≤ j := of_decide_eq_true hb.1.1
    have hjlen : j < bars.length := of_decide_eq_true hb.1.2
    have hgap : hiAt bars j < loAt bars (j - 2) := of_decide_eq_true hb.2
    unfold fvg_mitigated
    rw [hs, List.any_eq_true]
    refine ⟨j, List.mem_range'_1.mpr ⟨Nat.le_refl j, by omega⟩, ?_⟩
    rw [mitTouchBear, Bool.and_eq_true]
    exact ⟨decide_eq_true (le_refl _),
      decide_eq_true (le_trans (wf_lo_le_hi hwf hjlen) (le_of_lt hgap))⟩

theorem scanner_none_of_mitigation (sc : ScanCfg) (bars : List Bar)
    (hmit : sc.useFvgMitigationFilter = true) (hwf : ∀ b ∈ bars, b.lo ≤ b.hi)
    (idx L : Nat) : latest_fvg_confluence_row sc bars idx L = none := by
  unfold latest_fvg_confluence_row
  rw [List.findSome?_eq_none_iff]
  intro j hjmem
  simp only [scanCandidate]
  cases hs : fvg_side bars j with
  | noside => rfl
  | bull =>
    have hm : fvg_mitigated bars j = true :=
      mitigated_of_side bars hwf j (by rw [hs]; simp)
    simp [hmit, hm]
  | bear =>
    have hm : fvg_mitigated bars j = true :=
      mitigated_of_side bars hwf j (by rw [hs]; simp)
    simp [hmit, hm]

theorem decision_rejects (cfg : BTConfig) (bars : List Bar) (kz : Bool) (st : BTState)
    (i : Nat) (hn : latest_fvg_confluence_row cfg.scan bars i 60 = none) :
    ∃ r, tryEntryDecision cfg bars kz st i = .reject r := by
  simp only [tryEntryDecision, hn]
  repeat' split
  all_goals first | trivial | exact ⟨_, rfl⟩

theorem bumpStat_entries (s : Stats) (r : RejectReason) :
    (bumpStat s r).entries = s.entries := by
  cases r <;> rfl

theorem no_entry_invariant (cfg : BTConfig) (bars : List Bar) (kz : Bool)
    (hn : ∀ idx L, latest_fvg_confluence_row cfg.scan bars idx L = none) :
    ∀ (l : List Nat) (st : BTState), st.openTrades = [] → st.history = [] →
      st.stats.entries = 0 →
      (l.foldl (stepBar cfg bars kz) st).openTrades = [] ∧
      (l.foldl (stepBar cfg bars kz) st).history = [] ∧
      (l.foldl (stepBar cfg bars kz) st).stats.entries = 0 := by
  intro l
  induction l with
  | nil => intro st h1 h2 h3; exact ⟨h1, h2, h3⟩
  | cons i t ih =>
    intro st h1 h2 h3
    have hstep : (stepBar cfg bars kz st i).openTrades = [] ∧
        (stepBar cfg bars kz st i).history = [] ∧
        (stepBar cfg bars kz st i).stats.entries = 0 := by
      by_cases hbt : breakerTrips cfg (dayRoll cfg bars st i) = true
      · have h := c4_breaker_skips_whole_bar cfg bars kz st i hbt
        exact ⟨h.2.1.trans h1, h.1.trans h2, h.2.2.2.trans h3⟩
      · have hbf : breakerTrips cfg (dayRoll cfg bars st i) = false := by
          cases hb2 : breakerTrips cfg (dayRoll cfg bars st i) with
          | true => exact absurd hb2 hbt
          | false => rfl
        have hroll1 : (dayRoll cfg bars st i).openTrades = [] := by
          unfold dayRoll
          split <;> exact h1
        have hroll2 : (dayRoll cfg bars st i).history = [] := by
          unfold dayRoll
          split <;> exact h2
        have hroll3 : (dayRoll cfg bars st i).stats.entries = 0 := by
          unfold dayRoll
          split <;> exact h3
        have hmo : manageOpen cfg bars i (dayRoll cfg bars st i)
            = { dayRoll cfg bars st i with openTrades := [] } := by
          unfold manageOpen
          rw [hroll1]
          rfl
        obtain ⟨r, hr⟩ := decision_rejects cfg bars kz
          { dayRoll cfg bars st i with openTrades := [] } i (hn i 60)
        simp only [stepBar, hbf, Bool.false_eq_true, if_false, hmo, hr, applyOutcome]
        refine ⟨?_, ?_, ?_⟩
        · first | rfl | trivial
        · first | exact hroll2 | simpa using hroll2
        · first
            | (rw [bumpStat_entries]; exact hroll3)
            | (simp only [bumpStat_entries]; exact hroll3)
    simp only [List.foldl_cons]
    exact ih _ hstep.1 hstep.2.1 hstep.2.2

/-- C3: for well-formed bars (low <= high) the 3-bar gap condition forces
every detected FVG to overlap its own creation bar, so `mark_fvg_mitigation`
marks every FVG mitigated; consequently, whenever the mitigation filter is
enabled, the confluence scanner returns `none` at every index and the
backtest opens zero positions and reports zero trades. -/
theorem c3_self_mitigation (bars : List Bar) (cfg : BTConfig) (kz : Bool)
    (ml0 : Option MLState) (hwf : ∀ b ∈ bars, b.lo ≤ b.hi)
    (hmit : cfg.scan.useFvgMitigationFilter = true) :
    (∀ j, fvg_side bars j ≠ .noside → fvg_mitigated bars j = true) ∧
    (∀ idx L, latest_fvg_confluence_row cfg.scan bars idx L = none) ∧
    (runBT cfg bars kz ml0).stats.entries = 0 ∧
    (backtestRun cfg bars kz ml0).1.trades = 0 := by
  have hsc := scanner_none_of_mitigation cfg.scan bars hmit hwf
  have hinv := no_entry_invariant cfg bars kz hsc (List.range' 50 (bars.length - 50))
    (initState cfg ml0) rfl rfl rfl
  have h1 : (runBT cfg bars kz ml0).openTrades = [] := hinv.1
  have h2 : (runBT cfg bars kz ml0).history = [] := hinv.2.1
  have h3 : (runBT cfg bars kz ml0).stats.entries = 0 := hinv.2.2
  refine ⟨fun j hj => mitigated_of_side bars hwf j hj, fun idx L => hsc idx L, h3, ?_⟩
  show (metricsOf (finalize bars (runBT cfg bars kz ml0))).trades = 0
  have hfin : finalize bars (runBT cfg bars kz ml0) = runBT cfg bars kz ml0 := by
    unfold finalize
    rw [h1]
    rfl
  rw [hfin]
  unfold metricsOf
  rw [h2]
  rfl

/-- Witness for C3 on the concrete `cbBars` series with default config. -/
theorem c3_witness :
    (∀ b ∈ cbBars, b.lo ≤ b.hi) ∧ defaultCfg.scan.useFvgMitigationFilter = true ∧
    (runBT defaultCfg cbBars false none).stats.entries = 0 ∧
    (backtestRun defaultCfg cbBars false none).1.trades = 0 := by
  have h := c3_self_mitigation cbBars defaultCfg false none (by decide) rfl
  exact ⟨by decide, rfl, h.2.2.1, h.2.2.2⟩

/-- C6 (amended): the ML filter is a pure per-bar veto - from any engine
state, if the entry pipeline with the filter in place accepts a position
on a bar, the same pipeline with the filter bypassed (`ml=None`) accepts
one too, with the same side, entry, stop loss and take profit.  (The
run-level trade-count inequality of the original claim fails: see the
counterexample.) -/
theorem c6_ml_veto_per_bar (cfg : BTConfig) (bars : List Bar) (kz : Bool) (st : BTState)
    (i : Nat) (tr : Trade) (h : tryEntryDecision cfg bars kz st i = .accept tr) :
    tryEntryDecision cfg bars kz { st with ml := none } i
      = .accept ⟨tr.side, tr.entry, tr.sl, tr.tp, i, 1/2, none⟩ := by
  simp only [tryEntryDecision] at h ⊢
  repeat' split at h
  all_goals try cases h
  all_goals rename_i hcool q1 q2 hkz q3 fvg hfvg hbias hatr q4 hvol q5 p feats hml hmax q6 hside hdist q7 he1 q8 he0
  all_goals try cases he1
  all_goals try cases he0
  all_goals repeat' split
  all_goals first
    | rfl
    | (rename_i hc
       first
        | exact absurd hc hcool
        | exact absurd hc hbias
        | exact absurd hc hatr
        | exact absurd hc hvol
        | exact absurd hc hdist
        | exact absurd hc hmax)

/-- Witness for C6 (amended): the bar-50 entry of the `cbBars` run is
accepted from the same state both with the (absent) filter and bypassed. -/
theorem c6_witness :
    tryEntryDecision cfgCB cbBars false (initState cfgCB none) 50
      = .accept ⟨.buy, 41/40, 9/10, 5/4, 50, 1/2, none⟩ ∧
    tryEntryDecision cfgCB cbBars false { initState cfgCB none with ml := none } 50
      = .accept ⟨.buy, 41/40, 9/10, 5/4, 50, 1/2, none⟩ := by
  have hacc : tryEntryDecision cfgCB cbBars false (initState cfgCB none) 50
      = .accept ⟨.buy, 41/40, 9/10, 5/4, 50, 1/2, none⟩ := by decide
  exact ⟨hacc, c6_ml_veto_per_bar cfgCB cbBars false (initState cfgCB none) 50 _ hacc⟩

theorem pnlSum_nil : pnlSum [] = 0 := rfl

theorem pnlSum_cons (e : Event) (t : List Event) :
    pnlSum (e :: t) = evPnl e + pnlSum t := by
  simp [pnlSum]

theorem pnlSum_append (h1 h2 : List Event) :
    pnlSum (h1 ++ h2) = pnlSum h1 + pnlSum h2 := by
  simp [pnlSum, List.sum_append]

theorem eventsOK_append_single {e : Event} :
    ∀ (h1 : List Event) (e0 : ℚ), eventsOK e0 h1 →
      eventOKAt (e0 + pnlSum h1) e → eventsOK e0 (h1 ++ [e]) := by
  intro h1
  induction h1 with
  | nil =>
    intro e0 _ hAt
    rw [pnlSum_nil, add_zero] at hAt
    exact ⟨hAt, trivial⟩
  | cons f t ih =>
    intro e0 hok hAt
    obtain ⟨hf, ht⟩ := hok
    refine ⟨hf, ih (e0 + evPnl f) ht ?_⟩
    rw [pnlSum_cons, ← add_assoc] at hAt
    exact hAt

theorem pnlSum_none_zero :
    ∀ (evs : List Event), (∀ e ∈ evs, e.pnl = none) → pnlSum evs = 0 := by
  intro evs
  induction evs with
  | nil => intro _; rfl
  | cons e t ih =>
    intro h
    rw [pnlSum_cons, ih (fun x hx => h x (by simp [hx]))]
    have : evPnl e = 0 := by
      unfold evPnl
      rw [h e (by simp)]
      rfl
    rw [this, add_zero]

theorem eventsOK_append_closes :
    ∀ (evs : List Event), (∀ e ∈ evs, e.action = .close ∧ e.equity = none ∧ e.pnl = none) →
      ∀ (h : List Event) (e0 : ℚ), eventsOK e0 h → eventsOK e0 (h ++ evs) := by
  intro evs
  induction evs with
  | nil => intro _ h e0 hok; rw [List.append_nil]; exact hok
  | cons c t ih =>
    intro hprop h e0 hok
    have hc := hprop c (by simp)
    have h1 : eventsOK e0 (h ++ [c]) := by
      refine eventsOK_append_single h e0 hok ?_
      unfold eventOKAt
      rw [hc.1]
      exact ⟨hc.2.1, hc.2.2⟩
    have := ih (fun x hx => hprop x (by simp [hx])) (h ++ [c]) e0 h1
    simpa [List.append_assoc] using this

theorem lastEqD_of_ok :
    ∀ (h : List Event) (e0 : ℚ), eventsOK e0 h → lastEqD h e0 = e0 + pnlSum h := by
  intro h
  induction h with
  | nil =>
    intro e0 _
    simp [lastEqD, pnlSum]
  | cons e t ih =>
    intro e0 hok
    obtain ⟨hAt, ht⟩ := hok
    rw [pnlSum_cons]
    unfold eventOKAt at hAt
    unfold lastEqD at ih ⊢
    cases ha : e.action with
    | entry =>
      rw [ha] at hAt
      have hev : evPnl e = 0 := by
        unfold evPnl
        rw [hAt.2]
        rfl
      rw [List.filterMap_cons, hAt.1, List.getLastD_cons]
      rw [hev] at ht
      rw [add_zero] at ht
      have := ih e0 ht
      rw [this, hev, zero_add]
    | close =>
      rw [ha] at hAt
      have hev : evPnl e = 0 := by
        unfold evPnl
        rw [hAt.2]
        rfl
      rw [List.filterMap_cons, hAt.1]
      rw [hev] at ht
      rw [add_zero] at ht
      have := ih e0 ht
      rw [this, hev, zero_add]
    | tp =>
      rw [ha] at hAt
      obtain ⟨p, hp, he⟩ := hAt
      have hev : evPnl e = p := by
        unfold evPnl
        rw [hp]
        rfl
      rw [List.filterMap_cons, he, List.getLastD_cons]
      rw [hev] at ht
      have := ih (e0 + p) ht
      rw [this, hev, add_assoc]
    | sl =>
      rw [ha] at hAt
      obtain ⟨p, hp, he⟩ := hAt
      have hev : evPnl e = p := by
        unfold evPnl
        rw [hp]
        rfl
      rw [List.filterMap_cons, he, List.getLastD_cons]
      rw [hev] at ht
      have := ih (e0 + p) ht
      rw [this, hev, add_assoc]
theorem closeTrade_spec (cfg : BTConfig) (day : Nat) (st : BTState) (tr : Trade)
    (kind : Action) (price : ℚ) :
    (closeTrade cfg day st tr kind price).history
      = st.history ++ [⟨day, kind, tr.side, tr.entry, some price,
          some (st.equity + (if kind = .tp then cfg.rr * |tr.entry - tr.sl|
            else -|tr.entry - tr.sl|) / cfg.pip * cfg.pvLot),
          some ((if kind = .tp then cfg.rr * |tr.entry - tr.sl|
            else -|tr.entry - tr.sl|) / cfg.pip * cfg.pvLot)⟩] ∧
    (closeTrade cfg day st tr kind price).equity
      = st.equity + (if kind = .tp then cfg.rr * |tr.entry - tr.sl|
          else -|tr.entry - tr.sl|) / cfg.pip * cfg.pvLot := by
  constructor <;> rfl

theorem closeTrade_inv (cfg : BTConfig) (day : Nat) (st : BTState) (tr : Trade)
    (kind : Action) (price : ℚ) (hk : kind = .sl ∨ kind = .tp)
    (h1 : eventsOK 10000 st.history) (h2 : st.equity = 10000 + pnlSum st.history) :
    eventsOK 10000 (closeTrade cfg day st tr kind price).history ∧
      (closeTrade cfg day st tr kind price).equity
        = 10000 + pnlSum (closeTrade cfg day st tr kind price).history := by
  obtain ⟨hh, he⟩ := closeTrade_spec cfg day st tr kind price
  constructor
  · rw [hh]
    apply eventsOK_append_single st.history 10000 h1
    unfold eventOKAt
    rcases hk with hk | hk <;> rw [hk]
    · exact ⟨_, rfl, by rw [h2]⟩
    · exact ⟨_, rfl, by rw [h2]⟩
  · rw [hh, he, pnlSum_append, h2, add_assoc]
    simp [pnlSum, evPnl]

theorem resolveTrade_kind (tr : Trade) (hi lo : ℚ) (k : Action) (pr : ℚ)
    (h : resolveTrade tr hi lo = some (k, pr)) : k = .sl ∨ k = .tp := by
  unfold resolveTrade at h
  split at h
  · injection h with h1; injection h1 with hk hp; exact Or.inl hk.symm
  · split at h
    · injection h with h1; injection h1 with hk hp; exact Or.inl hk.symm
    · split at h
      · injection h with h1; injection h1 with hk hp; exact Or.inr hk.symm
      · cases h

theorem manageStep_inv (cfg : BTConfig) (day : Nat) (hi lo : ℚ) (st : BTState) (tr : Trade)
    (h1 : eventsOK 10000 st.history) (h2 : st.equity = 10000 + pnlSum st.history) :
    eventsOK 10000 (manageStep cfg day hi lo st tr).history ∧
      (manageStep cfg day hi lo st tr).equity
        = 10000 + pnlSum (manageStep cfg day hi lo st tr).history := by
  unfold manageStep
  cases hres : resolveTrade tr hi lo with
  | none => exact ⟨h1, h2⟩
  | some kp =>
    obtain ⟨k, pr⟩ := kp
    exact closeTrade_inv cfg day st tr k pr (resolveTrade_kind tr hi lo k pr hres) h1 h2

theorem foldl_manageStep_inv (cfg : BTConfig) (day : Nat) (hi lo : ℚ) :
    ∀ (l : List Trade) (st : BTState),
      eventsOK 10000 st.history ∧ st.equity = 10000 + pnlSum st.history →
      eventsOK 10000 (l.foldl (manageStep cfg day hi lo) st).history ∧
        (l.foldl (manageStep cfg day hi lo) st).equity
          = 10000 + pnlSum (l.foldl (manageStep cfg day hi lo) st).history := by
  intro l
  induction l with
  | nil => intro st h; exact h
  | cons tr t ih =>
    intro st h
    exact ih _ (manageStep_inv cfg day hi lo st tr h.1 h.2)

theorem manageOpen_inv (cfg : BTConfig) (bars : List Bar) (i : Nat) (st : BTState)
    (h1 : eventsOK 10000 st.history) (h2 : st.equity = 10000 + pnlSum st.history) :
    eventsOK 10000 (manageOpen cfg bars i st).history ∧
      (manageOpen cfg bars i st).equity
        = 10000 + pnlSum (manageOpen cfg bars i st).history := by
  unfold manageOpen
  exact foldl_manageStep_inv cfg (dayAt bars i) (hiAt bars i) (loAt bars i)
    st.openTrades { st with openTrades := [] } ⟨h1, h2⟩

theorem applyOutcome_inv (bars : List Bar) (st : BTState) (i : Nat) (o : EntryOutcome)
    (h1 : eventsOK 10000 st.history) (h2 : st.equity = 10000 + pnlSum st.history) :
    eventsOK 10000 (applyOutcome bars st i o).history ∧
      (applyOutcome bars st i o).equity
        = 10000 + pnlSum (applyOutcome bars st i o).history := by
  cases o with
  | reject r => exact ⟨h1, h2⟩
  | accept tr =>
    constructor
    · apply eventsOK_append_single st.history 10000 h1
      unfold eventOKAt
      exact ⟨by rw [h2], rfl⟩
    · have hone : pnlSum [(⟨dayAt bars i, .entry, tr.side, tr.entry, none,
          some st.equity, none⟩ : Event)] = 0 := by
        simp [pnlSum, evPnl]
      show st.equity = 10000 + pnlSum (st.history ++ [_])
      rw [pnlSum_append, hone, add_zero]
      exact h2

theorem stepBar_inv (cfg : BTConfig) (bars : List Bar) (kz : Bool) (st : BTState) (i : Nat)
    (h1 : eventsOK 10000 st.history) (h2 : st.equity = 10000 + pnlSum st.history) :
    eventsOK 10000 (stepBar cfg bars kz st i).history ∧
      (stepBar cfg bars kz st i).equity
        = 10000 + pnlSum (stepBar cfg bars kz st i).history := by
  have hd1 : (dayRoll cfg bars st i).history = st.history := by
    unfold dayRoll; split <;> rfl
  have hd2 : (dayRoll cfg bars st i).equity = st.equity := by
    unfold dayRoll; split <;> rfl
  have hdi1 : eventsOK 10000 (dayRoll cfg bars st i).history := by rw [hd1]; exact h1
  have hdi2 : (dayRoll cfg bars st i).equity
      = 10000 + pnlSum (dayRoll cfg bars st i).history := by
    rw [hd1, hd2]; exact h2
  simp only [stepBar]
  split
  · split
    · exact ⟨hdi1, hdi2⟩
    · exact ⟨hdi1, hdi2⟩
  · have hm := manageOpen_inv cfg bars i (dayRoll cfg bars st i) hdi1 hdi2
    exact applyOutcome_inv bars _ i _ hm.1 hm.2

theorem foldl_stepBar_inv (cfg : BTConfig) (bars : List Bar) (kz : Bool) :
    ∀ (l : List Nat) (st : BTState),
      eventsOK 10000 st.history ∧ st.equity = 10000 + pnlSum st.history →
      eventsOK 10000 (l.foldl (stepBar cfg bars kz) st).history ∧
        (l.foldl (stepBar cfg bars kz) st).equity
          = 10000 + pnlSum (l.foldl (stepBar cfg bars kz) st).history := by
  intro l
  induction l with
  | nil => intro st h; exact h
  | cons j t ih =>
    intro st h
    exact ih _ (stepBar_inv cfg bars kz st j h.1 h.2)

theorem finalize_ok (bars : List Bar) (st : BTState)
    (h1 : eventsOK 10000 st.history) :
    eventsOK 10000 (finalize bars st).history := by
  unfold finalize
  split
  · exact h1
  · apply eventsOK_append_closes _ _ st.history 10000 h1
    intro e he
    obtain ⟨tr, htr, rfl⟩ := List.mem_map.mp he
    exact ⟨rfl, rfl, rfl⟩

theorem metricsOf_eqFinal (st : BTState) :
    (metricsOf st).eqFinal = lastEqD st.history 10000 := by
  unfold metricsOf lastEqD
  split
  · rename_i h
    have h0 : st.history = [] := by simpa using h
    rw [h0]
    rfl
  · dsimp only
    split
    · rename_i h
      have h0 : st.history.filterMap (fun e => e.equity) = [] := by simpa using h
      rw [h0]
      rfl
    · rfl
/-- C7: ledger accounting is exact.  For every configuration, bar series,
wall-clock kill-zone value and initial ML state: (1) the returned ledger
satisfies the accounting discipline from equity 10000 (ENTRY events carry
the unchanged running equity, TP/SL events carry a realized P&L and shift
equity by exactly it, CLOSE events carry no equity and no P&L); (2) the
reported final equity equals 10000 plus the sum of realized P&L over all
TP/SL exits; (3) a TP exit realizes exactly RR*|entry-sl|/pip*pip_value and
an SL exit exactly -|entry-sl|/pip*pip_value. -/
theorem c7_ledger_identity (cfg : BTConfig) (bars : List Bar) (kz : Bool)
    (ml0 : Option MLState) :
    eventsOK 10000 (backtestRun cfg bars kz ml0).2 ∧
    (backtestRun cfg bars kz ml0).1.eqFinal
      = 10000 + pnlSum (backtestRun cfg bars kz ml0).2 ∧
    ∀ (day : Nat) (st : BTState) (tr : Trade) (price : ℚ),
      (closeTrade cfg day st tr .tp price).equity
        = st.equity + cfg.rr * |tr.entry - tr.sl| / cfg.pip * cfg.pvLot ∧
      (closeTrade cfg day st tr .sl price).equity
        = st.equity + -|tr.entry - tr.sl| / cfg.pip * cfg.pvLot := by
  have hrun : eventsOK 10000 (runBT cfg bars kz ml0).history ∧
      (runBT cfg bars kz ml0).equity = 10000 + pnlSum (runBT cfg bars kz ml0).history := by
    unfold runBT
    apply foldl_stepBar_inv
    constructor
    · trivial
    · show (10000 : ℚ) = 10000 + pnlSum []
      rw [pnlSum_nil, add_zero]
  have hfin : eventsOK 10000 (finalize bars (runBT cfg bars kz ml0)).history :=
    finalize_ok bars _ hrun.1
  refine ⟨hfin, ?_, ?_⟩
  · show (metricsOf (finalize bars (runBT cfg bars kz ml0))).eqFinal
      = 10000 + pnlSum (finalize bars (runBT cfg bars kz ml0)).history
    rw [metricsOf_eqFinal]
    exact lastEqD_of_ok _ _ hfin
  · intro day st tr price
    constructor
    · have h := (closeTrade_spec cfg day st tr .tp price).2
      rw [h, if_pos rfl]
    · have h := (closeTrade_spec cfg day st tr .sl price).2
      rw [h, if_neg (by decide)]

theorem opAt_append (bars ext : List Bar) : ∀ j, j < bars.length → opAt (bars ++ ext) j = opAt bars j := by
  intro j hj
  unfold opAt
  rw [List.getD_append bars ext default j hj]

theorem hiAt_append (bars ext : List Bar) : ∀ j, j < bars.length → hiAt (bars ++ ext) j = hiAt bars j := by
  intro j hj
  unfold hiAt
  rw [List.getD_append bars ext default j hj]

theorem loAt_append (bars ext : List Bar) : ∀ j, j < bars.length → loAt (bars ++ ext) j = loAt bars j := by
  intro j hj
  unfold loAt
  rw [List.getD_append bars ext default j hj]

theorem clAt_append (bars ext : List Bar) : ∀ j, j < bars.length → clAt (bars ++ ext) j = clAt bars j := by
  intro j hj
  unfold clAt
  rw [List.getD_append bars ext default j hj]

theorem swing_high_append (bars ext : List Bar) (i : Nat) (h : i + 2 < bars.length) :
    swing_high (bars ++ ext) 2 2 i = swing_high bars 2 2 i := by
  by_cases h2i : 2 ≤ i
  · unfold swing_high
    have hw : (List.range (2 + 2 + 1)).map (fun k => hiAt (bars ++ ext) (i - 2 + k))
        = (List.range (2 + 2 + 1)).map (fun k => hiAt bars (i - 2 + k)) := by
      apply List.map_congr_left
      intro k hk
      have hk5 := List.mem_range.mp hk
      exact hiAt_append bars ext _ (by omega)
    have hlen : i + 2 < (bars ++ ext).length := by rw [List.length_append]; omega
    rw [hw, hiAt_append bars ext i (by omega), decide_eq_true hlen, decide_eq_true h]
  · unfold swing_high
    rw [decide_eq_false h2i]
    simp

theorem swing_low_append (bars ext : List Bar) (i : Nat) (h : i + 2 < bars.length) :
    swing_low (bars ++ ext) 2 2 i = swing_low bars 2 2 i := by
  by_cases h2i : 2 ≤ i
  · unfold swing_low
    have hw : (List.range (2 + 2 + 1)).map (fun k => loAt (bars ++ ext) (i - 2 + k))
        = (List.range (2 + 2 + 1)).map (fun k => loAt bars (i - 2 + k)) := by
      apply List.map_congr_left
      intro k hk
      have hk5 := List.mem_range.mp hk
      exact loAt_append bars ext _ (by omega)
    have hlen : i + 2 < (bars ++ ext).length := by rw [List.length_append]; omega
    rw [hw, loAt_append bars ext i (by omega), decide_eq_true hlen, decide_eq_true h]
  · unfold swing_low
    rw [decide_eq_false h2i]
    simp

theorem lastSH_append (bars ext : List Bar) (i : Nat) (h : i + 2 < bars.length) :
    lastSH (bars ++ ext) i = lastSH bars i := by
  unfold lastSH
  apply foldl_congr_on
  intro j hj acc
  have hji := List.mem_range.mp hj
  rw [swing_high_append bars ext j (by omega), hiAt_append bars ext j (by omega)]

theorem lastSL_append (bars ext : List Bar) (i : Nat) (h : i + 2 < bars.length) :
    lastSL (bars ++ ext) i = lastSL bars i := by
  unfold lastSL
  apply foldl_congr_on
  intro j hj acc
  have hji := List.mem_range.mp hj
  rw [swing_low_append bars ext j (by omega), loAt_append bars ext j (by omega)]

theorem lastSHI_append (bars ext : List Bar) (i : Nat) (h : i + 2 < bars.length) :
    lastSHI (bars ++ ext) i = lastSHI bars i := by
  unfold lastSHI
  apply foldl_congr_on
  intro j hj acc
  have hji := List.mem_range.mp hj
  rw [swing_high_append bars ext j (by omega)]

theorem lastSLI_append (bars ext : List Bar) (i : Nat) (h : i + 2 < bars.length) :
    lastSLI (bars ++ ext) i = lastSLI bars i := by
  unfold lastSLI
  apply foldl_congr_on
  intro j hj acc
  have hji := List.mem_range.mp hj
  rw [swing_low_append bars ext j (by omega)]

theorem bos_up_append (bars ext : List Bar) (i : Nat) (h : i + 2 < bars.length) :
    bos_up (bars ++ ext) i = bos_up bars i := by
  unfold bos_up
  have hlen : i < (bars ++ ext).length := by rw [List.length_append]; omega
  rw [lastSH_append bars ext i h, clAt_append bars ext i (by omega),
    decide_eq_true hlen, decide_eq_true (show i < bars.length by omega)]

theorem bos_down_append (bars ext : List Bar) (i : Nat) (h : i + 2 < bars.length) :
    bos_down (bars ++ ext) i = bos_down bars i := by
  unfold bos_down
  have hlen : i < (bars ++ ext).length := by rw [List.length_append]; omega
  rw [lastSL_append bars ext i h, clAt_append bars ext i (by omega),
    decide_eq_true hlen, decide_eq_true (show i < bars.length by omega)]

theorem fvg_bull_append (bars ext : List Bar) (i : Nat) (h : i < bars.length) :
    fvg_bull (bars ++ ext) i = fvg_bull bars i := by
  unfold fvg_bull
  have hlen : i < (bars ++ ext).length := by rw [List.length_append]; omega
  rw [hiAt_append bars ext (i - 2) (by omega), loAt_append bars ext i h,
    decide_eq_true hlen, decide_eq_true h]

theorem fvg_bear_append (bars ext : List Bar) (i : Nat) (h : i < bars.length) :
    fvg_bear (bars ++ ext) i = fvg_bear bars i := by
  unfold fvg_bear
  have hlen : i < (bars ++ ext).length := by rw [List.length_append]; omega
  rw [loAt_append bars ext (i - 2) (by omega), hiAt_append bars ext i h,
    decide_eq_true hlen, decide_eq_true h]

theorem fvg_side_append (bars ext : List Bar) (i : Nat) (h : i < bars.length) :
    fvg_side (bars ++ ext) i = fvg_side bars i := by
  unfold fvg_side
  rw [fvg_bear_append bars ext i h, fvg_bull_append bars ext i h]

theorem fvg_bull_top_append (bars ext : List Bar) (i : Nat) (h : i < bars.length) :
    fvg_bull_top (bars ++ ext) i = fvg_bull_top bars i := by
  unfold fvg_bull_top
  rw [fvg_bull_append bars ext i h, loAt_append bars ext i h]

theorem fvg_bull_bot_append (bars ext : List Bar) (i : Nat) (h : i < bars.length) :
    fvg_bull_bot (bars ++ ext) i = fvg_bull_bot bars i := by
  unfold fvg_bull_bot
  rw [fvg_bull_append bars ext i h, hiAt_append bars ext (i - 2) (by omega)]

theorem fvg_bear_top_append (bars ext : List Bar) (i : Nat) (h : i < bars.length) :
    fvg_bear_top (bars ++ ext) i = fvg_bear_top bars i := by
  unfold fvg_bear_top
  rw [fvg_bear_append bars ext i h, loAt_append bars ext (i - 2) (by omega)]

theorem fvg_bear_bot_append (bars ext : List Bar) (i : Nat) (h : i < bars.length) :
    fvg_bear_bot (bars ++ ext) i = fvg_bear_bot bars i := by
  unfold fvg_bear_bot
  rw [fvg_bear_append bars ext i h, hiAt_append bars ext i h]

theorem obBullSrc_append (bars ext : List Bar) (lb i : Nat) (h : i ≤ bars.length) :
    obBullSrc (bars ++ ext) lb i = obBullSrc bars lb i := by
  unfold obBullSrc
  have hf : (List.range' (i - lb) (i - (i - lb))).filter
        (fun j => decide (clAt (bars ++ ext) j < opAt (bars ++ ext) j))
      = (List.range' (i - lb) (i - (i - lb))).filter
        (fun j => decide (clAt bars j < opAt bars j)) := by
    apply List.filter_congr
    intro j hj
    have hji := List.mem_range'_1.mp hj
    rw [clAt_append bars ext j (by omega), opAt_append bars ext j (by omega)]
  rw [hf]

theorem obBearSrc_append (bars ext : List Bar) (lb i : Nat) (h : i ≤ bars.length) :
    obBearSrc (bars ++ ext) lb i = obBearSrc bars lb i := by
  unfold obBearSrc
  have hf : (List.range' (i - lb) (i - (i - lb))).filter
        (fun j => decide (opAt (bars ++ ext) j < clAt (bars ++ ext) j))
      = (List.range' (i - lb) (i - (i - lb))).filter
        (fun j => decide (opAt bars j < clAt bars j)) := by
    apply List.filter_congr
    intro j hj
    have hji := List.mem_range'_1.mp hj
    rw [opAt_append bars ext j (by omega), clAt_append bars ext j (by omega)]
  rw [hf]

theorem obBullSrc_lt (bars : List Bar) (lb i j : Nat) (h : obBullSrc bars lb i = some j) :
    j < i := by
  unfold obBullSrc at h
  have h2 : j ∈ (List.range' (i - lb) (i - (i - lb))).filter
      (fun j => decide (clAt bars j < opAt bars j)) := by
    have hm : j ∈ ((List.range' (i - lb) (i - (i - lb))).filter
        (fun j => decide (clAt bars j < opAt bars j))).getLast? := by rw [h]; rfl
    obtain ⟨hne, rfl⟩ := List.mem_getLast?_eq_getLast hm
    exact List.getLast_mem hne
  have hji := List.mem_range'_1.mp (List.mem_filter.mp h2).1
  omega

theorem obBearSrc_lt (bars : List Bar) (lb i j : Nat) (h : obBearSrc bars lb i = some j) :
    j < i := by
  unfold obBearSrc at h
  have h2 : j ∈ (List.range' (i - lb) (i - (i - lb))).filter
      (fun j => decide (opAt bars j < clAt bars j)) := by
    have hm : j ∈ ((List.range' (i - lb) (i - (i - lb))).filter
        (fun j => decide (opAt bars j < clAt bars j))).getLast? := by rw [h]; rfl
    obtain ⟨hne, rfl⟩ := List.mem_getLast?_eq_getLast hm
    exact List.getLast_mem hne
  have hji := List.mem_range'_1.mp (List.mem_filter.mp h2).1
  omega
theorem ob_side_append (bars ext : List Bar) (i : Nat) (h : i + 2 < bars.length) :
    ob_side (bars ++ ext) 12 i = ob_side bars 12 i := by
  unfold ob_side
  rw [bos_up_append bars ext i h, bos_down_append bars ext i h,
    obBullSrc_append bars ext 12 i (by omega), obBearSrc_append bars ext 12 i (by omega)]

theorem ob_low_append (bars ext : List Bar) (i : Nat) (h : i + 2 < bars.length) :
    ob_low (bars ++ ext) 12 i = ob_low bars 12 i := by
  unfold ob_low
  rw [bos_up_append bars ext i h, bos_down_append bars ext i h,
    obBullSrc_append bars ext 12 i (by omega), obBearSrc_append bars ext 12 i (by omega)]
  by_cases hbu : bos_up bars i = true
  · rw [if_pos hbu, if_pos hbu]
    cases hsrc : obBullSrc bars 12 i with
    | none => rfl
    | some j =>
      have hji := obBullSrc_lt bars 12 i j hsrc
      simp only [Option.map]
      rw [loAt_append bars ext j (by omega)]
  · rw [if_neg hbu, if_neg hbu]
    by_cases hbd : bos_down bars i = true
    · rw [if_pos hbd, if_pos hbd]
      cases hsrc : obBearSrc bars 12 i with
      | none => rfl
      | some j =>
        have hji := obBearSrc_lt bars 12 i j hsrc
        simp only [Option.map]
        rw [opAt_append bars ext j (by omega)]
    · rw [if_neg hbd, if_neg hbd]

theorem ob_high_append (bars ext : List Bar) (i : Nat) (h : i + 2 < bars.length) :
    ob_high (bars ++ ext) 12 i = ob_high bars 12 i := by
  unfold ob_high
  rw [bos_up_append bars ext i h, bos_down_append bars ext i h,
    obBullSrc_append bars ext 12 i (by omega), obBearSrc_append bars ext 12 i (by omega)]
  by_cases hbu : bos_up bars i = true
  · rw [if_pos hbu, if_pos hbu]
    cases hsrc : obBullSrc bars 12 i with
    | none => rfl
    | some j =>
      have hji := obBullSrc_lt bars 12 i j hsrc
      simp only [Option.map]
      rw [opAt_append bars ext j (by omega)]
  · rw [if_neg hbu, if_neg hbu]
    by_cases hbd : bos_down bars i = true
    · rw [if_pos hbd, if_pos hbd]
      cases hsrc : obBearSrc bars 12 i with
      | none => rfl
      | some j =>
        have hji := obBearSrc_lt bars 12 i j hsrc
        simp only [Option.map]
        rw [hiAt_append bars ext j (by omega)]
    · rw [if_neg hbd, if_neg hbd]

theorem true_range_append (bars ext : List Bar) :
    ∀ j, j < bars.length → true_range (bars ++ ext) j = true_range bars j := by
  intro j hj
  cases j with
  | zero =>
    simp only [true_range]
    rw [hiAt_append bars ext 0 hj, loAt_append bars ext 0 hj]
  | succ n =>
    simp only [true_range]
    rw [hiAt_append bars ext (n + 1) hj, loAt_append bars ext (n + 1) hj,
      clAt_append bars ext n (by omega)]

theorem atr_append (bars ext : List Bar) :
    ∀ i, i < bars.length → atr (bars ++ ext) 14 i = atr bars 14 i := by
  intro i
  induction i with
  | zero => intro h0; rfl
  | succ n ih =>
    intro h
    by_cases h1 : n + 2 < 14
    · show (if n + 2 < 14 then (0 : ℚ) else _) = (if n + 2 < 14 then (0 : ℚ) else _)
      rw [if_pos h1, if_pos h1]
    · by_cases h2 : n + 2 = 14
      · have hm : (List.range 14).map (true_range (bars ++ ext))
            = (List.range 14).map (true_range bars) := by
          apply List.map_congr_left
          intro k hk
          have hk14 := List.mem_range.mp hk
          exact true_range_append bars ext k (by omega)
        show (if n + 2 < 14 then (0 : ℚ) else if n + 2 = 14 then _ else _)
          = (if n + 2 < 14 then (0 : ℚ) else if n + 2 = 14 then _ else _)
        rw [if_neg h1, if_neg h1, if_pos h2, if_pos h2, hm]
      · show (if n + 2 < 14 then (0 : ℚ) else if n + 2 = 14 then _ else _)
          = (if n + 2 < 14 then (0 : ℚ) else if n + 2 = 14 then _ else _)
        rw [if_neg h1, if_neg h1, if_neg h2, if_neg h2, ih (by omega),
          true_range_append bars ext (n + 1) h]

theorem lastSHI_le (bars : List Bar) (i j : Nat) (h : lastSHI bars i = some j) : j ≤ i := by
  unfold lastSHI at h
  rw [foldl_lastOpt] at h
  cases hg : ((List.range (i + 1)).filter (fun j => swing_high bars 2 2 j)).getLast? with
  | none => rw [hg] at h; cases h
  | some j0 =>
    rw [hg] at h
    simp only [Option.elim] at h
    have hj0 := ((range_filter_getLast_eq_some _ _ _).mp hg).1
    injection h with h2
    omega

theorem lastSLI_le (bars : List Bar) (i j : Nat) (h : lastSLI bars i = some j) : j ≤ i := by
  unfold lastSLI at h
  rw [foldl_lastOpt] at h
  cases hg : ((List.range (i + 1)).filter (fun j => swing_low bars 2 2 j)).getLast? with
  | none => rw [hg] at h; cases h
  | some j0 =>
    rw [hg] at h
    simp only [Option.elim] at h
    have hj0 := ((range_filter_getLast_eq_some _ _ _).mp hg).1
    injection h with h2
    omega

theorem bos_strength_append (bars ext : List Bar) (i : Nat) (h : i + 2 < bars.length) :
    bos_strength (bars ++ ext) i = bos_strength bars i := by
  unfold bos_strength
  rw [bos_up_append bars ext i h, bos_down_append bars ext i h,
    lastSHI_append bars ext i h, lastSLI_append bars ext i h,
    atr_append bars ext i (by omega), clAt_append bars ext i (by omega)]
  cases hsh : lastSHI bars i with
  | none =>
    cases hsl : lastSLI bars i with
    | none => rfl
    | some j =>
      have hji := lastSLI_le bars i j hsl
      simp only []
      rw [loAt_append bars ext j (by omega)]
  | some j =>
    have hji := lastSHI_le bars i j hsh
    cases hsl : lastSLI bars i with
    | none =>
      simp only []
      rw [hiAt_append bars ext j (by omega)]
    | some j2 =>
      have hj2 := lastSLI_le bars i j2 hsl
      simp only []
      rw [hiAt_append bars ext j (by omega), loAt_append bars ext j2 (by omega)]

theorem bos_age_append (bars ext : List Bar) (i : Nat) (h : i + 2 < bars.length) :
    bos_age (bars ++ ext) i = bos_age bars i := by
  unfold bos_age
  rw [bos_up_append bars ext i h, bos_down_append bars ext i h,
    lastSHI_append bars ext i h, lastSLI_append bars ext i h]

theorem infer_bias_append (bars ext : List Bar) (i : Nat) (h : i + 2 < bars.length) :
    infer_bias (bars ++ ext) i = infer_bias bars i := by
  unfold infer_bias
  rw [bos_up_append bars ext i h, bos_down_append bars ext i h]
theorem structAnalysis_append (bars ext : List Bar) (i : Nat) (h : i + 2 < bars.length) :
    structAnalysis (bars ++ ext) 20 i = structAnalysis bars 20 i := by
  unfold structAnalysis
  by_cases hlb : i < 20
  · rw [if_pos hlb, if_pos hlb]
  · rw [if_neg hlb, if_neg hlb]
    have hsh : (List.range' (i - 20) (i - (i - 20))).filter
          (fun j => swing_high (bars ++ ext) 2 2 j)
        = (List.range' (i - 20) (i - (i - 20))).filter (fun j => swing_high bars 2 2 j) := by
      apply List.filter_congr
      intro j hj
      have hji := List.mem_range'_1.mp hj
      exact swing_high_append bars ext j (by omega)
    have hsl : (List.range' (i - 20) (i - (i - 20))).filter
          (fun j => swing_low (bars ++ ext) 2 2 j)
        = (List.range' (i - 20) (i - (i - 20))).filter (fun j => swing_low bars 2 2 j) := by
      apply List.filter_congr
      intro j hj
      have hji := List.mem_range'_1.mp hj
      exact swing_low_append bars ext j (by omega)
    have hshl : (((List.range' (i - 20) (i - (i - 20))).filter
            (fun j => swing_high bars 2 2 j)).drop
          (((List.range' (i - 20) (i - (i - 20))).filter
            (fun j => swing_high bars 2 2 j)).length - 3)).map (hiAt (bars ++ ext))
        = (((List.range' (i - 20) (i - (i - 20))).filter
            (fun j => swing_high bars 2 2 j)).drop
          (((List.range' (i - 20) (i - (i - 20))).filter
            (fun j => swing_high bars 2 2 j)).length - 3)).map (hiAt bars) := by
      apply List.map_congr_left
      intro j hj
      have hjm := List.mem_filter.mp (List.mem_of_mem_drop hj)
      have hji := List.mem_range'_1.mp hjm.1
      exact hiAt_append bars ext j (by omega)
    have hsll : (((List.range' (i - 20) (i - (i - 20))).filter
            (fun j => swing_low bars 2 2 j)).drop
          (((List.range' (i - 20) (i - (i - 20))).filter
            (fun j => swing_low bars 2 2 j)).length - 3)).map (loAt (bars ++ ext))
        = (((List.range' (i - 20) (i - (i - 20))).filter
            (fun j => swing_low bars 2 2 j)).drop
          (((List.range' (i - 20) (i - (i - 20))).filter
            (fun j => swing_low bars 2 2 j)).length - 3)).map (loAt bars) := by
      apply List.map_congr_left
      intro j hj
      have hjm := List.mem_filter.mp (List.mem_of_mem_drop hj)
      have hji := List.mem_range'_1.mp hjm.1
      exact loAt_append bars ext j (by omega)
    simp only [hsh, hsl, hshl, hsll]

theorem market_structure_append (bars ext : List Bar) (i : Nat) (h : i + 2 < bars.length) :
    market_structure (bars ++ ext) i = market_structure bars i := by
  unfold market_structure
  rw [structAnalysis_append bars ext i h]

theorem structure_score_append (bars ext : List Bar) (i : Nat) (h : i + 2 < bars.length) :
    structure_score (bars ++ ext) i = structure_score bars i := by
  unfold structure_score
  rw [structAnalysis_append bars ext i h]

/-- C1 (amended): every per-bar annotation of `enrich` except
`fvg_mitigated` is local with horizon `i + 2`: appending further bars to
the series does not change its value at any index `i` with
`i + 2 < bars.length`.  (The swing fractals read the symmetric window up
to bar `i + 2`, so the bound is tight; `fvg_mitigated` scans forward over
the whole remaining series and is excluded.) -/
theorem c1_enrichment_locality (bars ext : List Bar) (i : Nat) (h : i + 2 < bars.length) :
    swing_high (bars ++ ext) 2 2 i = swing_high bars 2 2 i ∧
    swing_low (bars ++ ext) 2 2 i = swing_low bars 2 2 i ∧
    bos_up (bars ++ ext) i = bos_up bars i ∧
    bos_down (bars ++ ext) i = bos_down bars i ∧
    fvg_side (bars ++ ext) i = fvg_side bars i ∧
    fvg_bull_top (bars ++ ext) i = fvg_bull_top bars i ∧
    fvg_bull_bot (bars ++ ext) i = fvg_bull_bot bars i ∧
    fvg_bear_top (bars ++ ext) i = fvg_bear_top bars i ∧
    fvg_bear_bot (bars ++ ext) i = fvg_bear_bot bars i ∧
    ob_side (bars ++ ext) 12 i = ob_side bars 12 i ∧
    ob_low (bars ++ ext) 12 i = ob_low bars 12 i ∧
    ob_high (bars ++ ext) 12 i = ob_high bars 12 i ∧
    atr (bars ++ ext) 14 i = atr bars 14 i ∧
    bos_strength (bars ++ ext) i = bos_strength bars i ∧
    bos_age (bars ++ ext) i = bos_age bars i ∧
    market_structure (bars ++ ext) i = market_structure bars i ∧
    structure_score (bars ++ ext) i = structure_score bars i ∧
    infer_bias (bars ++ ext) i = infer_bias bars i := by
  refine ⟨swing_high_append bars ext i h, swing_low_append bars ext i h, bos_up_append bars ext i h, bos_down_append bars ext i h, fvg_side_append bars ext i (by omega), fvg_bull_top_append bars ext i (by omega), fvg_bull_bot_append bars ext i (by omega), fvg_bear_top_append bars ext i (by omega), fvg_bear_bot_append bars ext i (by omega), ob_side_append bars ext i h, ob_low_append bars ext i h, ob_high_append bars ext i h, atr_append bars ext i (by omega), bos_strength_append bars ext i h, bos_age_append bars ext i h, market_structure_append bars ext i h, structure_score_append bars ext i h, infer_bias_append bars ext i h⟩

/-- Closed instance of the locality theorem at `i = 10` on the 60-bar
circuit-breaker series extended by one bar. -/
theorem c1_witness :
    10 + 2 < cbBars.length ∧
    (swing_high (cbBars ++ [qbar 1 1 1 1]) 2 2 10 = swing_high cbBars 2 2 10 ∧
    swing_low (cbBars ++ [qbar 1 1 1 1]) 2 2 10 = swing_low cbBars 2 2 10 ∧
    bos_up (cbBars ++ [qbar 1 1 1 1]) 10 = bos_up cbBars 10 ∧
    bos_down (cbBars ++ [qbar 1 1 1 1]) 10 = bos_down cbBars 10 ∧
    fvg_side (cbBars ++ [qbar 1 1 1 1]) 10 = fvg_side cbBars 10 ∧
    fvg_bull_top (cbBars ++ [qbar 1 1 1 1]) 10 = fvg_bull_top cbBars 10 ∧
    fvg_bull_bot (cbBars ++ [qbar 1 1 1 1]) 10 = fvg_bull_bot cbBars 10 ∧
    fvg_bear_top (cbBars ++ [qbar 1 1 1 1]) 10 = fvg_bear_top cbBars 10 ∧
    fvg_bear_bot (cbBars ++ [qbar 1 1 1 1]) 10 = fvg_bear_bot cbBars 10 ∧
    ob_side (cbBars ++ [qbar 1 1 1 1]) 12 10 = ob_side cbBars 12 10 ∧
    ob_low (cbBars ++ [qbar 1 1 1 1]) 12 10 = ob_low cbBars 12 10 ∧
    ob_high (cbBars ++ [qbar 1 1 1 1]) 12 10 = ob_high cbBars 12 10 ∧
    atr (cbBars ++ [qbar 1 1 1 1]) 14 10 = atr cbBars 14 10 ∧
    bos_strength (cbBars ++ [qbar 1 1 1 1]) 10 = bos_strength cbBars 10 ∧
    bos_age (cbBars ++ [qbar 1 1 1 1]) 10 = bos_age cbBars 10 ∧
    market_structure (cbBars ++ [qbar 1 1 1 1]) 10 = market_structure cbBars 10 ∧
    structure_score (cbBars ++ [qbar 1 1 1 1]) 10 = structure_score cbBars 10 ∧
    infer_bias (cbBars ++ [qbar 1 1 1 1]) 10 = infer_bias cbBars 10) :=
  ⟨by decide, c1_enrichment_locality cbBars [qbar 1 1 1 1] 10 (by decide)⟩

end ICTBot
